/-
Verification of the mesh synchronization core against its specification.

The development shallowly embeds the wire-transport protocol driver
(`src/wire-transport.ts`), the XOR finger table (`src/fingertable.ts`),
and — where the corresponding modules are absent from the sources and only
their tests or callers remain — models of HAM, Dup and the Store taken from
the specification text.  JavaScript `Map`s are embedded as association lists
with functional update, JS numbers used as timestamps/clocks as `Int`, and
asynchronous handlers as pure state-passing functions.
-/
import Mathlib

set_option autoImplicit false
set_option linter.unusedSectionVars false

namespace Mesh

/-! ## Association-list maps (embedding of JS `Map` / plain objects) -/

/-- Lookup of the first binding of key `a` (JS `Map.get` / object indexing). -/
def mapLookup {α β : Type} [DecidableEq α] : List (α × β) → α → Option β
  | [], _ => none
  | (k, v) :: rest, a => if a = k then some v else mapLookup rest a

/-- Insert-or-replace (JS `Map.set`): an existing binding is replaced in
place, a new key is appended at the end, matching JS `Map` insertion order. -/
def mapInsert {α β : Type} [DecidableEq α] : List (α × β) → α → β → List (α × β)
  | [], a, b => [(a, b)]
  | (k, v) :: rest, a, b => if a = k then (a, b) :: rest else (k, v) :: mapInsert rest a b

/-- Deletion of the first binding of key `a` (JS `Map.delete`). -/
def mapErase {α β : Type} [DecidableEq α] : List (α × β) → α → List (α × β)
  | [], _ => []
  | (k, v) :: rest, a => if a = k then rest else (k, v) :: mapErase rest a

/-- The keys of an association list, in order. -/
def mapKeys {α β : Type} (l : List (α × β)) : List α := l.map Prod.fst

/-! ## Graph data model (spec section 3) -/

/-- A scalar value or relation stored under a field. -/
inductive GraphValue
  | null
  | boolean (b : Bool)
  | number (n : Int)
  | str (s : String)
  | rel (soul : String)
deriving DecidableEq, Repr

/-- `utils.rel.is`: the target soul of a relation value, if any. -/
def relTarget : GraphValue → Option String
  | GraphValue.rel s => some s
  | _ => none

/-- A node: the `_` metadata — soul, per-field state map `_.>`, and the
optional signature map `_.s` (state → signature string, spec 6.2) — plus the
field values.  States are wall-clock milliseconds, embedded as `Int`. -/
structure Node where
  soul : String
  states : List (String × Int)
  fields : List (String × GraphValue)
  sigs : List (Int × String)
deriving DecidableEq, Repr

/-- A graph: mapping soul → node. -/
def Graph : Type := List (String × Node)

instance : DecidableEq Graph := by unfold Graph; infer_instance

instance : Repr Graph := by unfold Graph; infer_instance

/-- A lex field selector: exact field, prefix, inclusive range, or a raw
numeric field (which the public API coerces to a string). -/
inductive LexField
  | exact (f : String)
  | pfx (p : String)
  | range (lo hi : String)
  | num (n : Int)
deriving DecidableEq, Repr

/-- A lex query `{"#": soul, ".": field?}`. -/
structure Lex where
  soul : String
  field : Option LexField
deriving DecidableEq, Repr

/-! ## Finger table (`src/fingertable.ts`) -/

/-- A peer entry: a stable id plus a send handle.  The handle type is a
parameter; the wire instantiates it with the closed-over transport sender. -/
structure Peer (σ : Type) where
  id : String
  send : σ
deriving DecidableEq, Repr

/-- `K_BUCKET_SIZE` from `src/fingertable.ts`. -/
def K_BUCKET_SIZE : Nat := 20

/-- The finger-table state: `buckets` maps a bucket index (leading zeros of
the XOR distance) to its peers, `peerMap` maps a peer id to its entry. -/
structure FingerTableState (σ : Type) where
  buckets : List (Nat × List (Peer σ))
  peerMap : List (String × Peer σ)
deriving DecidableEq, Repr

/-- The empty finger table created by `FingerTable(selfId)`. -/
def FingerTableState.empty {σ : Type} : FingerTableState σ := ⟨[], []⟩

/-- `bucket.findIndex(p => p.id === peerId)` followed by `splice(idx, 1)`:
remove the first peer with the given id, if any. -/
def eraseFirstById {σ : Type} : List (Peer σ) → String → List (Peer σ)
  | [], _ => []
  | p :: rest, peerId => if p.id = peerId then rest else p :: eraseFirstById rest peerId

/-- `removePeer(peerId)` from `src/fingertable.ts` (lines 60-77): no-op when
the id is unknown; otherwise remove the peer from its bucket (dropping the
bucket when it becomes empty) and from `peerMap`.  `bidx` embeds the awaited
`XOR.bucketIndex(selfId, peerId)` (the xor module is not in the sources, so
the SHA-256-based index is kept abstract). -/
def removePeer {σ : Type} (selfId : String) (bidx : String → String → Nat)
    (st : FingerTableState σ) (peerId : String) : FingerTableState σ :=
  match mapLookup st.peerMap peerId with
  | none => st
  | some _ =>
    let bucketIdx := bidx selfId peerId
    let st1 :=
      match mapLookup st.buckets bucketIdx with
      | none => st
      | some bucket =>
        let bucket1 := eraseFirstById bucket peerId
        if bucket1.isEmpty then { st with buckets := mapErase st.buckets bucketIdx }
        else { st with buckets := mapInsert st.buckets bucketIdx bucket1 }
    { st1 with peerMap := mapErase st1.peerMap peerId }

/-- The second half of `addPeer(peer)` (`src/fingertable.ts` lines 37-57),
run after self-rejection and removal of a pre-existing entry: create the
target bucket when absent, reject when the bucket is full, otherwise push
the peer and register it in `peerMap`. -/
def addPeerGo {σ : Type} (selfId : String) (bidx : String → String → Nat)
    (st1 : FingerTableState σ) (peer : Peer σ) : FingerTableState σ × Bool :=
  let bucketIdx := bidx selfId peer.id
  let st2 := if (mapLookup st1.buckets bucketIdx).isNone
             then { st1 with buckets := mapInsert st1.buckets bucketIdx [] } else st1
  let bucket := (mapLookup st2.buckets bucketIdx).getD []
  if K_BUCKET_SIZE ≤ bucket.length then (st2, false)
  else
    ({ st2 with buckets := mapInsert st2.buckets bucketIdx (bucket ++ [peer]),
                peerMap := mapInsert st2.peerMap peer.id peer }, true)

/-- `addPeer(peer)` from `src/fingertable.ts` (lines 30-58): reject self;
remove a pre-existing entry with the same id; then `addPeerGo`.  Returns
the new state plus the boolean result. -/
def addPeer {σ : Type} (selfId : String) (bidx : String → String → Nat)
    (st : FingerTableState σ) (peer : Peer σ) : FingerTableState σ × Bool :=
  if peer.id = selfId then (st, false)
  else
    addPeerGo selfId bidx
      (if (mapLookup st.peerMap peer.id).isSome
       then removePeer selfId bidx st peer.id else st) peer

/-- `getPeer(peerId)`. -/
def getPeer {σ : Type} (st : FingerTableState σ) (peerId : String) : Option (Peer σ) :=
  mapLookup st.peerMap peerId

/-- `count()`: the size of `peerMap`. -/
def ftCount {σ : Type} (st : FingerTableState σ) : Nat := st.peerMap.length

/-- One call against the finger table, for reasoning about arbitrary
add/remove histories. -/
inductive FTOp (σ : Type)
  | add (p : Peer σ)
  | remove (id : String)

/-- Apply one finger-table operation. -/
def applyFTOp {σ : Type} (selfId : String) (bidx : String → String → Nat)
    (st : FingerTableState σ) : FTOp σ → FingerTableState σ
  | FTOp.add p => (addPeer selfId bidx st p).1
  | FTOp.remove i => removePeer selfId bidx st i

/-- Apply a sequence of finger-table operations to the fresh table. -/
def applyFTOps {σ : Type} (selfId : String) (bidx : String → String → Nat)
    (ops : List (FTOp σ)) : FingerTableState σ :=
  ops.foldl (applyFTOp selfId bidx) FingerTableState.empty

/-- The total number of peers across all buckets. -/
def bucketsSize {σ : Type} (l : List (Nat × List (Peer σ))) : Nat :=
  (l.map (fun ib => ib.2.length)).sum

/-- Structural invariant of the finger table: bucket keys and peer ids are
unique, `peerMap` and the buckets register exactly the same peers (each
filed in the bucket of its XOR index), no bucket is empty or over capacity,
and `count()` agrees with the bucket contents. -/
structure FTInv {σ : Type} (selfId : String) (bidx : String → String → Nat)
    (st : FingerTableState σ) : Prop where
  nodupBKeys : (mapKeys st.buckets).Nodup
  nodupPKeys : (mapKeys st.peerMap).Nodup
  pmId : ∀ id p, mapLookup st.peerMap id = some p → p.id = id
  pmInBucket : ∀ id p, mapLookup st.peerMap id = some p →
      ∃ b, mapLookup st.buckets (bidx selfId id) = some b ∧ p ∈ b
  bucketSound : ∀ i b, mapLookup st.buckets i = some b → ∀ p, p ∈ b →
      bidx selfId p.id = i ∧ mapLookup st.peerMap p.id = some p
  bucketIdsNodup : ∀ i b, mapLookup st.buckets i = some b → (b.map Peer.id).Nodup
  bucketNonempty : ∀ i b, mapLookup st.buckets i = some b → b ≠ []
  bucketCap : ∀ i b, mapLookup st.buckets i = some b → b.length ≤ K_BUCKET_SIZE
  countEq : st.peerMap.length = bucketsSize st.buckets

/-! ## Rate limiter (`src/wire-transport.ts` lines 45-82) -/

/-- Per-client rate-limiter record: request timestamps, last cleanup time,
and the throttle counter. -/
structure RLClient where
  requests : List Int
  lastCleanup : Int
  throttleCount : Nat
deriving DecidableEq, Repr

/-- `maxRequests` from `createRateLimiter`. -/
def rlMaxRequests : Nat := 1500

/-- `windowMs` from `createRateLimiter`. -/
def rlWindowMs : Int := 60000

/-- `client.requests.filter(time => now - time < windowMs)`. -/
def rlInWindow (now : Int) (l : List Int) : List Int :=
  l.filter (fun t => now - t < rlWindowMs)

/-- `Math.min(...)` over a request list (only evaluated on nonempty lists
in the source). -/
def listMin : List Int → Int
  | [] => 0
  | [t] => t
  | t :: u :: rest => min t (listMin (u :: rest))

/-- `getDelay(clientId)` (lines 61-76): look the client up (defaulting to a
fresh record), restrict to the in-window requests, and either record the
request with delay `0`, or — at or above the cap — leave it unrecorded,
bump the throttle counter and return the remaining window time. -/
def rlGetDelay (clients : List (String × RLClient)) (now : Int) (clientId : String) :
    Int × List (String × RLClient) :=
  let client := (mapLookup clients clientId).getD ⟨[], now, 0⟩
  let reqs := rlInWindow now client.requests
  if rlMaxRequests ≤ reqs.length then
    let delay := rlWindowMs - (now - listMin reqs)
    (max 0 delay, mapInsert clients clientId ⟨reqs, client.lastCleanup, client.throttleCount + 1⟩)
  else
    (0, mapInsert clients clientId ⟨reqs ++ [now], client.lastCleanup, client.throttleCount⟩)

/-- `shouldDisconnect(clientId)` (lines 77-80). -/
def rlShouldDisconnect (clients : List (String × RLClient)) (clientId : String) : Bool :=
  match mapLookup clients clientId with
  | some c => 10 ≤ c.throttleCount
  | none => false

/-! ## Outbound message queue (`src/wire-transport.ts` lines 96-124) -/

/-- `setTimeout(resolve, 10)` between consecutive sends in `process`. -/
def pacingDelayMs : Nat := 10

/-- State of `createMessageQueue`: the pending FIFO queue, the messages
handed to `sendFn` so far, and (for specification purposes) the ordered log
of successfully enqueued messages. -/
structure MQState where
  queued : List String
  sent : List String
  accepted : List String
deriving DecidableEq, Repr

/-- The state of a fresh message queue. -/
def MQState.empty : MQState := ⟨[], [], []⟩

/-- An observable event of the message queue: an `enqueue` call, or one
iteration of the cooperative `process` drain (shift the head, send it, then
pause `pacingDelayMs`). -/
inductive MQEvent
  | enq (m : String)
  | drainStep

/-- One step of the message queue.  `enqueue` rejects (returning an error,
state unchanged) when the queue is at `maxQueueLength`; a drain step sends
the head of the queue, if any. -/
def mqStep (maxQueueLength : Nat) (st : MQState) : MQEvent → MQState
  | MQEvent.enq m =>
      if maxQueueLength ≤ st.queued.length then st
      else { st with queued := st.queued ++ [m], accepted := st.accepted ++ [m] }
  | MQEvent.drainStep =>
      match st.queued with
      | [] => st
      | m :: rest => { queued := rest, sent := st.sent ++ [m], accepted := st.accepted }

/-- Run the message queue over a sequence of events from the empty state. -/
def mqRun (maxQueueLength : Nat) (events : List MQEvent) : MQState :=
  events.foldl (mqStep maxQueueLength) MQState.empty

/-! ## `getWithCallback` (`src/wire-transport.ts` lines 226-283) -/

/-- The shape of the `put` payload delivered to a get callback: a real
subgraph, the null-valued "not found" soul, or the null-valued field. -/
inductive AckPayload
  | subgraph (g : Graph)
  | nullFor (soul : String)
  | fieldNullFor (soul field : String)
deriving DecidableEq, Repr

/-- A wire message as delivered to a callback. -/
structure WireMsg where
  id : Option String
  reply : Option String
  put : Option AckPayload
  err : Option String
deriving DecidableEq, Repr

/-- `opts.wait || 100`: absent or zero wait falls back to 100 ms. -/
def waitMsOf : Option Nat → Nat
  | none => 100
  | some w => if w = 0 then 100 else w

/-- The inner `handleResponse(put?, err?)` (lines 239-249): a send error
fires the callback with that error and deletes the queue entry; otherwise
the callback fires only when a payload or error is present.
`sendErr` is the `err` field of the `send(request)` result, `registered`
whether `queue[dupTrack]` is currently set.  Returns the fired callback
invocations and whether the queue entry survives. -/
def handleResponseModel (sendErr : Option String) (put : Option AckPayload)
    (err : Option String) (registered : Bool) : List WireMsg × Bool :=
  match sendErr with
  | some e => ([⟨none, none, none, some e⟩], false)
  | none =>
    if put.isSome || err.isSome then ([⟨none, none, put, err⟩], registered)
    else ([], registered)

/-- Outcome of the synchronous part of `getWithCallback`: callback firings
before any asynchronous event, whether `queue[dupTrack]` is registered, and
the delay of the scheduled timeout (if one was scheduled). -/
structure GetOutcome where
  firedNow : List WireMsg
  registered : Bool
  timeoutMs : Option Nat
deriving DecidableEq, Repr

/-- The control flow of `getWithCallback` (lines 226-283).  `localAck`
embeds `Get(lex, graph, opts.fast)`, `storeAck`/`storeErr` the result passed
to the `store.get` callback (the store module is not in the sources; its
reply is kept abstract), and `sendErr` the error marker of `send(request)`.
On a local hit, respond at once.  Otherwise, on a store hit, respond with
it; on a store miss, register the queue entry, schedule the timeout for
`opts.wait || 100` ms, and send the request. -/
def getWithCallbackOutcome (localAck : Option Graph) (storeAck : Option Graph)
    (storeErr : Option String) (sendErr : Option String) (optWait : Option Nat) :
    GetOutcome :=
  match localAck with
  | some a =>
    let fr := handleResponseModel sendErr (some (AckPayload.subgraph a)) none false
    ⟨fr.1, fr.2, none⟩
  | none =>
    match storeAck with
    | some a =>
      let fr := handleResponseModel sendErr (some (AckPayload.subgraph a)) storeErr false
      ⟨fr.1, fr.2, none⟩
    | none =>
      let fr := handleResponseModel sendErr none none true
      ⟨fr.1, fr.2, some (waitMsOf optWait)⟩

/-- The null-valued "not found" subgraph built by the timeout handler
(lines 267-273): `put = \x7b[lex["#"]]: null\x7d`, refined to the single
null-valued field when `lex["."]` is an exact field string. -/
def nullAckPayload (lex : Lex) : AckPayload :=
  match lex.field with
  | some (LexField.exact f) => AckPayload.fieldNullFor lex.soul f
  | _ => AckPayload.nullFor lex.soul

/-- The message the timeout handler passes to the callback:
`cb(\x7b "#": dupTrack, put: ack \x7d)`. -/
def timeoutMsg (lex : Lex) (dupTrack : String) : WireMsg :=
  ⟨some dupTrack, none, some (nullAckPayload lex), none⟩

/-- The live pending-get entry `queue[dupTrack]` together with the callback
invocations observed so far. -/
structure PendingGet where
  live : Bool
  fired : List WireMsg
deriving DecidableEq, Repr

/-- An asynchronous event that can reach a pending get: an inbound ACK
correlated to its id (`handleMessage` lines 370-377, which fires the
callback and deletes the entry only when it is still present), or the
timeout firing (lines 266-276, guarded by `if (queue[dupTrack])`). -/
inductive GetEvent
  | ackArrive (m : WireMsg)
  | timeoutFire

/-- One asynchronous step of a pending get. -/
def stepPendingGet (lex : Lex) (dupTrack : String) (st : PendingGet) :
    GetEvent → PendingGet
  | GetEvent.ackArrive m => if st.live then ⟨false, st.fired ++ [m]⟩ else st
  | GetEvent.timeoutFire =>
      if st.live then ⟨false, st.fired ++ [timeoutMsg lex dupTrack]⟩ else st

/-- Run a pending get over a sequence of asynchronous events. -/
def runPendingGet (lex : Lex) (dupTrack : String) (st : PendingGet)
    (events : List GetEvent) : PendingGet :=
  events.foldl (stepPendingGet lex dupTrack) st

/-- The local-only fallback send (`src/wire-transport.ts` lines 514-517):
when no transport and no transport server are configured,
`sendFunction = () => \x7b\x7d`, whose result carries no error marker. -/
def localOnlySendResult (_msg : String) : Option String := none

/-! ## HAM conflict resolution

Modelled from the spec: `ham.js` is absent from the sources (only its test
suite remains), so `HAM.mix` is embedded following spec section 4.5 — the
user-soul validation run before the per-field loop (`advanceFields`), the
per-field pairwise rule, the 24-hour rejection bound, deferral of future
states with the minimum delay tracked into `wait`, and the in-place graph
update.  Signature verification itself is the external SEA collaborator
(spec section 1) and is abstracted as the `verify` parameter; the surviving
ham test suite fixes the `~pub`/`~@alias` branches, and shows the `secure`
flag does not change which `~pub` fields merge (an `_.s` check is required
either way), so `secure` is not a parameter here.  The MAX_GRAPH_SIZE
eviction (spec I5) is not exercised by any claim and is elided. -/

/-- The 24-hour deferral upper bound, in milliseconds (`now + 86_400_000`). -/
def dayMs : Int := 86400000

/-- The string encoding used for the deterministic equal-state tie-break
("lexical comparison of the string encodings of the two values; the larger
wins", spec section 4.5). -/
def encodeGV : GraphValue → String
  | GraphValue.null => "null"
  | GraphValue.boolean true => "true"
  | GraphValue.boolean false => "false"
  | GraphValue.number n => toString n
  | GraphValue.str s => "\"" ++ s ++ "\""
  | GraphValue.rel s => "\x7b\"#\":\"" ++ s ++ "\"\x7d"

/-- The stored state of `(soul, field)` in a graph. -/
def currentState (g : Graph) (soul f : String) : Option Int :=
  match mapLookup g soul with
  | none => none
  | some n => mapLookup n.states f

/-- The stored value of `(soul, field)` in a graph. -/
def currentValue (g : Graph) (soul f : String) : Option GraphValue :=
  match mapLookup g soul with
  | none => none
  | some n => mapLookup n.fields f

/-- The pairwise HAM rule at a non-future incoming state: newer wins,
historical loses, and an equal state falls to the lexical tie-break (an
absent stored value — the `undefined` tombstone sentinel — encodes below
every value, so the incoming value wins). -/
def hamAccepts (g : Graph) (soul f : String) (s : Int) (v : GraphValue) : Bool :=
  match currentState g soul f with
  | none => true
  | some c =>
    if c < s then true
    else if s < c then false
    else
      match currentValue g soul f with
      | none => true
      | some w => decide (encodeGV w < encodeGV v)

/-- Accumulator of merging one node: accepted `(field, value, state)`
triples, deferred triples, and the minimum deferral delay seen so far. -/
structure NodeMixAcc where
  acc : List (String × GraphValue × Int)
  dfr : List (String × GraphValue × Int)
  wait : Option Int

/-- Combine a new deferral delay into the running minimum. -/
def minDelay (d : Int) : Option Int → Option Int
  | none => some d
  | some w => some (min d w)

/-- User-soul validation of spec section 4.5, run before the per-field
merge loop.  A `~@alias` soul advances only fields whose key equals the soul
referenced by the field's relation value; a `~pub` soul is rejected whole
unless its `pub` field equals the pub in its key, and advances only fields
whose state carries an `_.s` signature that verifies under `pub` against the
field's value (`verify pub value sig` abstracts `SEA.verifyTimestamp`); an
unsigned public soul advances all its fields. -/
def advanceFields (verify : String → GraphValue → String → Bool)
    (soul : String) (node : Node) : List (String × GraphValue) :=
  if "~@".data.isPrefixOf soul.data then
    node.fields.filter (fun fv => relTarget fv.2 = some fv.1)
  else if "~".data.isPrefixOf soul.data then
    if mapLookup node.fields "pub" = some (GraphValue.str (soul.drop 1)) then
      node.fields.filter (fun fv =>
        match mapLookup node.states fv.1 with
        | none => false
        | some st =>
          match mapLookup node.sigs st with
          | none => false
          | some sig => verify (soul.drop 1) fv.2 sig)
    else []
  else node.fields

/-- Merge the fields of one incoming node against the graph: a field with
no entry in `_.>` is skipped; a state beyond `now + 24h` is dropped; a
future state within 24h is deferred, its delay `s - now` tracked into
`wait`; otherwise the pairwise rule decides acceptance. -/
def mixFields (now : Int) (g : Graph) (soul : String) (states : List (String × Int)) :
    List (String × GraphValue) → NodeMixAcc
  | [] => ⟨[], [], none⟩
  | (f, v) :: rest =>
    let r := mixFields now g soul states rest
    match mapLookup states f with
    | none => r
    | some s =>
      if now + dayMs < s then r
      else if now < s then ⟨r.acc, (f, v, s) :: r.dfr, minDelay (s - now) r.wait⟩
      else if hamAccepts g soul f s v then ⟨(f, v, s) :: r.acc, r.dfr, r.wait⟩
      else r

/-- Rebuild a node from merged `(field, value, state)` triples, carrying
the incoming node's signature map (signatures are preserved, spec 4.5). -/
def nodeOfTriples (soul : String) (sigs : List (Int × String))
    (ts : List (String × GraphValue × Int)) : Node :=
  ⟨soul, ts.map (fun t => (t.1, t.2.2)), ts.map (fun t => (t.1, t.2.1)), sigs⟩

/-- Apply accepted triples to the graph node of `soul` (creating it when
absent), updating each field value and its `_.>` state. -/
def applyAccepted (g : Graph) (soul : String)
    (ts : List (String × GraphValue × Int)) : Graph :=
  let n0 := (mapLookup g soul).getD ⟨soul, [], [], []⟩
  let n1 := ts.foldl
    (fun n t =>
      ⟨n.soul, mapInsert n.states t.1 t.2.2, mapInsert n.fields t.1 t.2.1, n.sigs⟩) n0
  mapInsert g soul n1

/-- Result of `HAM.mix`: the accepted subgraph `now` (to be persisted), the
deferred subgraph, the updated in-memory graph, and the minimum deferral
delay (`none` when nothing was deferred). -/
structure MixResult where
  nowG : Graph
  defer : Graph
  graph : Graph
  wait : Option Int

/-- Merge each incoming soul in order — validating it first, then running
the per-field loop over the advanced fields — threading the graph. -/
def mixChange (verify : String → GraphValue → String → Bool) (now : Int)
    (g : Graph) : Graph → MixResult
  | [] => ⟨[], [], g, none⟩
  | (soul, node) :: rest =>
    let nm := mixFields now g soul node.states (advanceFields verify soul node)
    let g1 := if nm.acc.isEmpty then g else applyAccepted g soul nm.acc
    let r := mixChange verify now g1 rest
    ⟨(if nm.acc.isEmpty then r.nowG
      else (soul, nodeOfTriples soul node.sigs nm.acc) :: r.nowG),
     (if nm.dfr.isEmpty then r.defer
      else (soul, nodeOfTriples soul node.sigs nm.dfr) :: r.defer),
     r.graph,
     (match nm.wait, r.wait with
      | none, w => w
      | some d, none => some d
      | some d, some w => some (min d w))⟩

/-- `HAM.mix(change, graph, secure, listen)`, modelled from spec section
4.5 (see the section comment above). -/
def hamMix (verify : String → GraphValue → String → Bool) (now : Int)
    (change : Graph) (g : Graph) : MixResult :=
  mixChange verify now g change

/-! ## `handlePut` (`src/wire-transport.ts` lines 204-224) -/

/-- Result of one `handlePut` invocation: the souls passed to `store.put`,
the deferred re-merge timer scheduled via `setTimeout` (delay and deferred
subgraph), and the updated in-memory graph. -/
structure PutStepResult where
  written : List String
  scheduled : Option (Int × Graph)
  graph : Graph

/-- `handlePut(msg, send)`: run `Ham.mix`; when nothing was accepted,
schedule the deferred re-merge (if any) and stop; otherwise run the wire
`check` step (lines 165-189, an anti-spoofing GET for the user public key
of each written soul — its asynchronous outcome is abstracted as `checkOk`;
on failure `handlePut` returns before persisting or scheduling), then
persist `update.now` and schedule the deferred re-merge after `update.wait`
ms. -/
def handlePutStep (verify : String → GraphValue → String → Bool) (now : Int)
    (g : Graph) (putG : Graph) (checkOk : Bool) : PutStepResult :=
  let u := hamMix verify now putG g
  if u.nowG.isEmpty then
    ⟨[], (if u.defer.isEmpty then none else some (u.wait.getD 0, u.defer)), u.graph⟩
  else if checkOk then
    ⟨mapKeys u.nowG, (if u.defer.isEmpty then none else some (u.wait.getD 0, u.defer)),
     u.graph⟩
  else ⟨[], none, u.graph⟩

/-! ## Wire message handling (`src/wire-transport.ts` lines 289-381) -/

/-- The mutable state of one wire instance that inbound handling touches:
the in-memory graph, the pending ACK callbacks (callbacks embedded as
tokens), the per-soul listener lists, `pendingReferences`, the finger table
(send handles are the closed-over transport senders, embedded as `Unit`),
the Dup seen-id set (modelled from the spec: `dup.js` is absent; spec
section 4.4 — only membership is relevant here, ages and LRU pressure are
elided), the souls for which the store holds data (the store module is
absent; its contents are abstracted to this set), and the log of
`store.put` calls, each recorded as its list of written souls. -/
structure CoreState where
  graph : Graph
  queue : List (String × Nat)
  listen : List (String × List Nat)
  pending : List String
  finger : FingerTableState Unit
  dupIds : List String
  storeSouls : List String
  writes : List (List String)
deriving DecidableEq

/-- A parsed inbound wire message. -/
structure InMsg where
  id : Option String
  reply : Option String
  hello : Option String
  get : Option Lex
  put : Option Graph
deriving DecidableEq

/-- The protocol handlers an inbound message can reach; `handleMessage`
returns the list of those it invoked. -/
inductive WireAction
  | helloAdd (pub : String)
  | getHandled (lex : Lex)
  | putHandled (souls : List String)
  | ackDelivered (cb : Nat)
deriving DecidableEq

/-- `hasSoul(soul)` (lines 154-159): the soul is in the in-memory graph, or
`store.get` yields data for it. -/
def hasSoul (st : CoreState) (soul : String) : Bool :=
  (mapLookup st.graph soul).isSome || st.storeSouls.contains soul

/-- The subscription predicate of the PUT filter (lines 348 and 359):
`(await hasSoul(soul)) || pendingReferences.has(soul) || listen[soul]`. -/
def subscribed (st : CoreState) (pend : List String) (soul : String) : Bool :=
  hasSoul st soul || pend.contains soul || (mapLookup st.listen soul).isSome

/-- `pendingReferences.add`: JS `Set` insertion. -/
def setAdd (pend : List String) (x : String) : List String :=
  if pend.contains x then pend else pend ++ [x]

/-- Walk a node's values in order, adding each relation target
(`utils.rel.is`) to `pendingReferences`. -/
def addRelTargetsGo : List String → List (String × GraphValue) → List String
  | pend, [] => pend
  | pend, fv :: rest =>
    addRelTargetsGo
      (match relTarget fv.2 with
        | some t => setAdd pend t
        | none => pend) rest

/-- Add the relation targets of a node's values (`utils.rel.is`). -/
def addRelTargets (pend : List String) (node : Node) : List String :=
  addRelTargetsGo pend node.fields

/-- First pass of PUT handling (lines 346-354): for every incoming soul
that is subscribed, record the relation targets of its values into
`pendingReferences` (later souls see the references added by earlier
ones). -/
def extractPass (st : CoreState) : List String → Graph → List String
  | pend, [] => pend
  | pend, (soul, node) :: rest =>
    let pend1 := if subscribed st pend soul then addRelTargets pend node else pend
    extractPass st pend1 rest

/-- Second pass (lines 356-363): retain exactly the subscribed souls,
removing each retained soul from `pendingReferences`. -/
def filterPass (st : CoreState) : List String → Graph → List String × Graph
  | pend, [] => (pend, [])
  | pend, (soul, node) :: rest =>
    if subscribed st pend soul then
      let pr := filterPass st (pend.erase soul) rest
      (pr.1, (soul, node) :: pr.2)
    else filterPass st pend rest

/-- The PUT branch of `handleMessage` (lines 344-368): run both passes,
then — when the filtered change is nonempty — `handlePut` it, append the
persisted souls to the store and the write log.  (The persistence ACK sent
on line 217 and the deferral timer do not touch the state modelled here.) -/
def handleMsgPut (verify : String → GraphValue → String → Bool) (now : Int)
    (checkOk : Bool) (st : CoreState) (putG : Graph) :
    CoreState × List WireAction :=
  let pend1 := extractPass st st.pending putG
  let fp := filterPass st pend1 putG
  let st1 := { st with pending := fp.1 }
  if fp.2.isEmpty then (st1, [])
  else
    let r := handlePutStep verify now st1.graph fp.2 checkOk
    ({ st1 with graph := r.graph,
                storeSouls := st1.storeSouls ++ r.written,
                writes := st1.writes ++ [r.written] },
     [WireAction.putHandled (mapKeys fp.2)])

/-- `handleMessage(data, clientId)` after the rate-limit stage (lines
308-377), on an already-parsed message: drop when the id is missing or
already in Dup; otherwise track the id, then run the HELLO branch (add the
claimed peer id to the finger table when both the pub and the connection id
are nonempty), the GET branch (embedded as its handler invocation; the
reply machinery of lines 191-202 only touches Dup and the transport), the
filtered PUT branch, and the ACK branch (deliver to and delete the pending
queue entry of `msg["@"]`). -/
def handleMessage (selfId : String) (bidx : String → String → Nat)
    (verify : String → GraphValue → String → Bool) (now : Int)
    (checkOk : Bool) (st : CoreState) (msg : InMsg) (clientId : String) :
    CoreState × List WireAction :=
  match msg.id with
  | none => (st, [])
  | some mid =>
    if st.dupIds.contains mid then (st, [])
    else
      let st1 := { st with dupIds := mid :: st.dupIds }
      let step1 : CoreState × List WireAction :=
        match msg.hello with
        | some pub =>
          if pub ≠ "" ∧ clientId ≠ "" then
            ({ st1 with finger := (addPeer selfId bidx st1.finger ⟨pub, ()⟩).1 },
             [WireAction.helloAdd pub])
          else (st1, [])
        | none => (st1, [])
      let acts2 : List WireAction :=
        match msg.get with
        | some lex => [WireAction.getHandled lex]
        | none => []
      let step3 : CoreState × List WireAction :=
        match msg.put with
        | some putG => handleMsgPut verify now checkOk step1.1 putG
        | none => (step1.1, [])
      let step4 : CoreState × List WireAction :=
        match msg.reply with
        | some r =>
          match mapLookup step3.1.queue r with
          | some cb => ({ step3.1 with queue := mapErase step3.1.queue r },
                        [WireAction.ackDelivered cb])
          | none => (step3.1, [])
        | none => (step3.1, [])
      (step4.1, step1.2 ++ acts2 ++ step3.2 ++ step4.2)

/-- The `server.onDisconnection` handler (lines 404-407): it removes the
*transport connection id* from the finger table. -/
def onDisconnection (selfId : String) (bidx : String → String → Nat)
    (st : CoreState) (connId : String) : CoreState :=
  { st with finger := removePeer selfId bidx st.finger connId }

/-! ## Lemmas about the association-list maps -/

section MapLemmas

variable {α β : Type} [DecidableEq α]

@[simp] theorem mapKeys_nil : mapKeys ([] : List (α × β)) = [] := rfl

@[simp] theorem mapKeys_cons (k : α) (v : β) (l : List (α × β)) :
    mapKeys ((k, v) :: l) = k :: mapKeys l := rfl

theorem mapLookup_insert (l : List (α × β)) (a : α) (b : β) (c : α) :
    mapLookup (mapInsert l a b) c = if c = a then some b else mapLookup l c := by
  induction l with
  | nil => simp [mapInsert, mapLookup]
  | cons kv rest ih =>
    obtain ⟨k, v⟩ := kv
    by_cases hak : a = k
    · subst hak
      simp only [mapInsert, if_pos rfl, mapLookup]
      by_cases hca : c = a <;> simp [hca]
    · simp only [mapInsert, if_neg hak, mapLookup, ih]
      by_cases hck : c = k
      · subst hck
        have hca : ¬ c = a := fun h => hak h.symm
        simp [hca]
      · simp [hck]

theorem mapLookup_erase_ne (l : List (α × β)) (a c : α) (h : c ≠ a) :
    mapLookup (mapErase l a) c = mapLookup l c := by
  induction l with
  | nil => simp [mapErase]
  | cons kv rest ih =>
    obtain ⟨k, v⟩ := kv
    by_cases hak : a = k
    · subst hak
      simp only [mapErase, if_pos rfl, mapLookup]
      simp [if_neg h]
    · simp only [mapErase, if_neg hak, mapLookup, ih]

theorem mem_keys_of_lookup {l : List (α × β)} {a : α} {b : β}
    (h : mapLookup l a = some b) : a ∈ mapKeys l := by
  induction l with
  | nil => simp [mapLookup] at h
  | cons kv rest ih =>
    obtain ⟨k, v⟩ := kv
    by_cases hak : a = k
    · subst hak; simp
    · simp only [mapLookup, if_neg hak] at h
      rw [mapKeys_cons]
      exact List.mem_cons_of_mem _ (ih h)

theorem lookup_eq_none_of_not_mem_keys {l : List (α × β)} {a : α}
    (h : a ∉ mapKeys l) : mapLookup l a = none := by
  induction l with
  | nil => rfl
  | cons kv rest ih =>
    obtain ⟨k, v⟩ := kv
    rw [mapKeys_cons] at h
    have hak : ¬ a = k := fun he => h (he ▸ List.mem_cons_self k _)
    simp only [mapLookup, if_neg hak]
    exact ih (fun hm => h (List.mem_cons_of_mem _ hm))

theorem mapLookup_erase_self {l : List (α × β)} {a : α}
    (h : (mapKeys l).Nodup) : mapLookup (mapErase l a) a = none := by
  induction l with
  | nil => rfl
  | cons kv rest ih =>
    obtain ⟨k, v⟩ := kv
    rw [mapKeys_cons, List.nodup_cons] at h
    by_cases hak : a = k
    · subst hak
      simp only [mapErase, if_pos rfl]
      exact lookup_eq_none_of_not_mem_keys h.1
    · simp only [mapErase, if_neg hak, mapLookup, if_neg hak]
      exact ih h.2

theorem keys_insert_of_lookup_none {l : List (α × β)} {a : α} (b : β)
    (h : mapLookup l a = none) : mapKeys (mapInsert l a b) = mapKeys l ++ [a] := by
  induction l with
  | nil => simp [mapInsert]
  | cons kv rest ih =>
    obtain ⟨k, v⟩ := kv
    by_cases hak : a = k
    · subst hak; simp [mapLookup] at h
    · simp only [mapLookup, if_neg hak] at h
      simp only [mapInsert, if_neg hak, mapKeys_cons, ih h]
      rfl

theorem keys_insert_of_lookup_some {l : List (α × β)} {a : α} {c : β} (b : β)
    (h : mapLookup l a = some c) : mapKeys (mapInsert l a b) = mapKeys l := by
  induction l with
  | nil => simp [mapLookup] at h
  | cons kv rest ih =>
    obtain ⟨k, v⟩ := kv
    by_cases hak : a = k
    · subst hak
      simp [mapInsert]
    · simp only [mapLookup, if_neg hak] at h
      simp only [mapInsert, if_neg hak, mapKeys_cons, ih h]

theorem lookup_isSome_of_mem_keys {l : List (α × β)} {a : α}
    (h : a ∈ mapKeys l) : (mapLookup l a).isSome := by
  induction l with
  | nil => simp at h
  | cons kv rest ih =>
    obtain ⟨k, v⟩ := kv
    by_cases hak : a = k
    · subst hak; simp [mapLookup]
    · rw [mapKeys_cons, List.mem_cons] at h
      simp only [mapLookup, if_neg hak]
      exact ih (h.resolve_left hak)

theorem not_mem_keys_of_lookup_none {l : List (α × β)} {a : α}
    (h : mapLookup l a = none) : a ∉ mapKeys l := by
  intro hm
  have := lookup_isSome_of_mem_keys hm
  rw [h] at this
  exact (Bool.noConfusion this : False)

theorem nodup_keys_insert {l : List (α × β)} {a : α} (b : β)
    (h : (mapKeys l).Nodup) : (mapKeys (mapInsert l a b)).Nodup := by
  cases hl : mapLookup l a with
  | none =>
    rw [keys_insert_of_lookup_none b hl]
    exact List.Nodup.append h (List.nodup_singleton a)
      (List.disjoint_singleton.2 (not_mem_keys_of_lookup_none hl))
  | some c =>
    rw [keys_insert_of_lookup_some b hl]; exact h

theorem keys_erase_sublist (l : List (α × β)) (a : α) :
    (mapKeys (mapErase l a)).Sublist (mapKeys l) := by
  induction l with
  | nil => simp [mapErase]
  | cons kv rest ih =>
    obtain ⟨k, v⟩ := kv
    by_cases hak : a = k
    · subst hak
      simp only [mapErase, if_pos rfl, mapKeys]
      exact (List.sublist_cons_self _ _)
    · simp only [mapErase, if_neg hak, mapKeys, List.map]
      exact List.Sublist.cons₂ _ ih

theorem nodup_keys_erase {l : List (α × β)} (a : α)
    (h : (mapKeys l).Nodup) : (mapKeys (mapErase l a)).Nodup :=
  (keys_erase_sublist l a).nodup h

theorem mapErase_of_lookup_none {l : List (α × β)} {a : α}
    (h : mapLookup l a = none) : mapErase l a = l := by
  induction l with
  | nil => rfl
  | cons kv rest ih =>
    obtain ⟨k, v⟩ := kv
    by_cases hak : a = k
    · subst hak; simp [mapLookup] at h
    · simp only [mapLookup, if_neg hak] at h
      simp [mapErase, if_neg hak, ih h]

theorem length_erase_of_lookup_some {l : List (α × β)} {a : α} {b : β}
    (h : mapLookup l a = some b) : (mapErase l a).length + 1 = l.length := by
  induction l with
  | nil => simp [mapLookup] at h
  | cons kv rest ih =>
    obtain ⟨k, v⟩ := kv
    by_cases hak : a = k
    · subst hak; simp [mapErase]
    · simp only [mapLookup, if_neg hak] at h
      simp only [mapErase, if_neg hak, List.length_cons, ih h]

theorem length_insert_of_lookup_none {l : List (α × β)} {a : α} (b : β)
    (h : mapLookup l a = none) : (mapInsert l a b).length = l.length + 1 := by
  induction l with
  | nil => rfl
  | cons kv rest ih =>
    obtain ⟨k, v⟩ := kv
    by_cases hak : a = k
    · subst hak; simp [mapLookup] at h
    · simp only [mapLookup, if_neg hak] at h
      simp [mapInsert, if_neg hak, ih h]

theorem mapInsert_insert_same (l : List (α × β)) (a : α) (b c : β) :
    mapInsert (mapInsert l a b) a c = mapInsert l a c := by
  induction l with
  | nil => simp [mapInsert]
  | cons kv rest ih =>
    obtain ⟨k, v⟩ := kv
    by_cases hak : a = k
    · subst hak; simp [mapInsert]
    · simp [mapInsert, if_neg hak, ih]

end MapLemmas

/-! ## Lemmas about bucket manipulation -/

section BucketLemmas

variable {σ : Type}

theorem eraseFirstById_sublist (b : List (Peer σ)) (pid : String) :
    (eraseFirstById b pid).Sublist b := by
  induction b with
  | nil => simp [eraseFirstById]
  | cons p rest ih =>
    by_cases h : p.id = pid
    · simp only [eraseFirstById, if_pos h]
      exact List.sublist_cons_self p rest
    · simp only [eraseFirstById, if_neg h]
      exact List.Sublist.cons₂ p ih

theorem mem_eraseFirstById_of_ne {b : List (Peer σ)} {p : Peer σ} {pid : String}
    (hp : p ∈ b) (hne : p.id ≠ pid) : p ∈ eraseFirstById b pid := by
  induction b with
  | nil => simp at hp
  | cons q rest ih =>
    by_cases h : q.id = pid
    · simp only [eraseFirstById, if_pos h]
      rcases List.mem_cons.1 hp with h1 | h1
      · exact absurd (by rw [h1]; exact h) hne
      · exact h1
    · simp only [eraseFirstById, if_neg h]
      rcases List.mem_cons.1 hp with h1 | h1
      · exact h1 ▸ List.mem_cons_self q _
      · exact List.mem_cons_of_mem q (ih h1)

theorem id_ne_of_mem_eraseFirstById {b : List (Peer σ)} {pid : String}
    (hnd : (b.map Peer.id).Nodup) {p : Peer σ} (hp : p ∈ eraseFirstById b pid) :
    p.id ≠ pid := by
  induction b with
  | nil => simp [eraseFirstById] at hp
  | cons q rest ih =>
    rw [List.map_cons, List.nodup_cons] at hnd
    by_cases h : q.id = pid
    · simp only [eraseFirstById, if_pos h] at hp
      intro hpid
      exact hnd.1 (by rw [h, ← hpid]; exact List.mem_map_of_mem Peer.id hp)
    · simp only [eraseFirstById, if_neg h] at hp
      rcases List.mem_cons.1 hp with h1 | h1
      · rw [h1]; exact h
      · exact ih hnd.2 h1

theorem length_eraseFirstById {b : List (Peer σ)} {q : Peer σ} {pid : String}
    (hq : q ∈ b) (hid : q.id = pid) : (eraseFirstById b pid).length + 1 = b.length := by
  induction b with
  | nil => simp at hq
  | cons p rest ih =>
    by_cases h : p.id = pid
    · simp [eraseFirstById, if_pos h]
    · simp only [eraseFirstById, if_neg h, List.length_cons]
      rcases List.mem_cons.1 hq with h1 | h1
      · exact absurd (by rw [← h1]; exact hid) h
      · rw [ih h1]

@[simp] theorem bucketsSize_nil : bucketsSize ([] : List (Nat × List (Peer σ))) = 0 := rfl

@[simp] theorem bucketsSize_cons (k : Nat) (v : List (Peer σ))
    (l : List (Nat × List (Peer σ))) :
    bucketsSize ((k, v) :: l) = v.length + bucketsSize l := by
  simp [bucketsSize]

theorem bucketsSize_erase_some {l : List (Nat × List (Peer σ))} {a : Nat}
    {c : List (Peer σ)} (h : mapLookup l a = some c) :
    bucketsSize (mapErase l a) + c.length = bucketsSize l := by
  induction l with
  | nil => simp [mapLookup] at h
  | cons kv rest ih =>
    obtain ⟨k, v⟩ := kv
    by_cases hak : a = k
    · subst hak
      simp [mapLookup] at h
      subst h
      have he : mapErase ((a, v) :: rest) a = rest := by simp [mapErase]
      rw [he, bucketsSize_cons]
      omega
    · simp only [mapLookup, if_neg hak] at h
      simp only [mapErase, if_neg hak, bucketsSize_cons]
      have := ih h
      omega

theorem bucketsSize_insert_some {l : List (Nat × List (Peer σ))} {a : Nat}
    {c : List (Peer σ)} (b : List (Peer σ)) (h : mapLookup l a = some c) :
    bucketsSize (mapInsert l a b) + c.length = bucketsSize l + b.length := by
  induction l with
  | nil => simp [mapLookup] at h
  | cons kv rest ih =>
    obtain ⟨k, v⟩ := kv
    by_cases hak : a = k
    · subst hak
      simp [mapLookup] at h
      subst h
      have he : mapInsert ((a, v) :: rest) a b = (a, b) :: rest := by simp [mapInsert]
      rw [he, bucketsSize_cons, bucketsSize_cons]
      omega
    · simp only [mapLookup, if_neg hak] at h
      simp only [mapInsert, if_neg hak, bucketsSize_cons]
      have := ih h
      omega

theorem bucketsSize_insert_none {l : List (Nat × List (Peer σ))} {a : Nat}
    (b : List (Peer σ)) (h : mapLookup l a = none) :
    bucketsSize (mapInsert l a b) = bucketsSize l + b.length := by
  induction l with
  | nil => simp [mapInsert]
  | cons kv rest ih =>
    obtain ⟨k, v⟩ := kv
    by_cases hak : a = k
    · subst hak; simp [mapLookup] at h
    · simp only [mapLookup, if_neg hak] at h
      simp only [mapInsert, if_neg hak, bucketsSize_cons]
      have := ih h
      omega

end BucketLemmas

/-! ## Finger-table equation lemmas and invariant preservation -/

section FingerTableProofs

variable {σ : Type} (selfId : String) (bidx : String → String → Nat)

theorem removePeer_of_lookup_none {st : FingerTableState σ} {pid : String}
    (h : mapLookup st.peerMap pid = none) : removePeer selfId bidx st pid = st := by
  unfold removePeer
  rw [h]

theorem removePeer_eq_erase {st : FingerTableState σ} {pid : String} {q : Peer σ}
    {bucket : List (Peer σ)}
    (h : mapLookup st.peerMap pid = some q)
    (hb : mapLookup st.buckets (bidx selfId pid) = some bucket)
    (he : (eraseFirstById bucket pid).isEmpty = true) :
    removePeer selfId bidx st pid =
      ⟨mapErase st.buckets (bidx selfId pid), mapErase st.peerMap pid⟩ := by
  unfold removePeer
  simp [h, hb, he]

theorem removePeer_eq_shrink {st : FingerTableState σ} {pid : String} {q : Peer σ}
    {bucket : List (Peer σ)}
    (h : mapLookup st.peerMap pid = some q)
    (hb : mapLookup st.buckets (bidx selfId pid) = some bucket)
    (he : ¬ (eraseFirstById bucket pid).isEmpty = true) :
    removePeer selfId bidx st pid =
      ⟨mapInsert st.buckets (bidx selfId pid) (eraseFirstById bucket pid),
       mapErase st.peerMap pid⟩ := by
  unfold removePeer
  simp [h, hb, he]

theorem removePeer_peerMap {st : FingerTableState σ} {pid : String} {q : Peer σ}
    (h : mapLookup st.peerMap pid = some q) :
    (removePeer selfId bidx st pid).peerMap = mapErase st.peerMap pid := by
  unfold removePeer
  rw [h]
  cases hb : mapLookup st.buckets (bidx selfId pid) with
  | none => simp [hb]
  | some bucket =>
    by_cases he : (eraseFirstById bucket pid).isEmpty <;> simp [hb, he]

theorem addPeer_eq_self {st : FingerTableState σ} {peer : Peer σ}
    (h : peer.id = selfId) : addPeer selfId bidx st peer = (st, false) := by
  unfold addPeer
  rw [if_pos h]

theorem addPeer_eq_fresh {st : FingerTableState σ} {peer : Peer σ}
    (hne : peer.id ≠ selfId) (habs : mapLookup st.peerMap peer.id = none) :
    addPeer selfId bidx st peer = addPeerGo selfId bidx st peer := by
  unfold addPeer
  simp [hne, habs]

theorem addPeer_eq_present {st : FingerTableState σ} {peer : Peer σ} {q : Peer σ}
    (hne : peer.id ≠ selfId) (hpm : mapLookup st.peerMap peer.id = some q) :
    addPeer selfId bidx st peer =
      addPeerGo selfId bidx (removePeer selfId bidx st peer.id) peer := by
  unfold addPeer
  simp [hne, hpm]

theorem addPeerGo_eq_reject {st1 : FingerTableState σ} {peer : Peer σ}
    {b : List (Peer σ)}
    (hb : mapLookup st1.buckets (bidx selfId peer.id) = some b)
    (hfull : K_BUCKET_SIZE ≤ b.length) :
    addPeerGo selfId bidx st1 peer = (st1, false) := by
  unfold addPeerGo
  simp [hb, hfull]

theorem addPeerGo_eq_push_some {st1 : FingerTableState σ} {peer : Peer σ}
    {b : List (Peer σ)}
    (hb : mapLookup st1.buckets (bidx selfId peer.id) = some b)
    (hlt : b.length < K_BUCKET_SIZE) :
    addPeerGo selfId bidx st1 peer =
      (⟨mapInsert st1.buckets (bidx selfId peer.id) (b ++ [peer]),
        mapInsert st1.peerMap peer.id peer⟩, true) := by
  have hnot : ¬ K_BUCKET_SIZE ≤ b.length := by omega
  unfold addPeerGo
  simp [hb, hnot]

theorem addPeerGo_eq_push_none {st1 : FingerTableState σ} {peer : Peer σ}
    (hb : mapLookup st1.buckets (bidx selfId peer.id) = none) :
    addPeerGo selfId bidx st1 peer =
      (⟨mapInsert st1.buckets (bidx selfId peer.id) [peer],
        mapInsert st1.peerMap peer.id peer⟩, true) := by
  unfold addPeerGo
  simp [hb, mapLookup_insert, mapInsert_insert_same, K_BUCKET_SIZE]

theorem ftinv_empty : FTInv selfId bidx (FingerTableState.empty : FingerTableState σ) := by
  constructor
  · simp [FingerTableState.empty, mapKeys]
  · simp [FingerTableState.empty, mapKeys]
  · intro id p h; simp [FingerTableState.empty, mapLookup] at h
  · intro id p h; simp [FingerTableState.empty, mapLookup] at h
  · intro i b h; simp [FingerTableState.empty, mapLookup] at h
  · intro i b h; simp [FingerTableState.empty, mapLookup] at h
  · intro i b h; simp [FingerTableState.empty, mapLookup] at h
  · intro i b h; simp [FingerTableState.empty, mapLookup] at h
  · rfl

theorem ftinv_removePeer {st : FingerTableState σ}
    (inv : FTInv selfId bidx st) (pid : String) :
    FTInv selfId bidx (removePeer selfId bidx st pid) := by
  cases hpm : mapLookup st.peerMap pid with
  | none => rw [removePeer_of_lookup_none selfId bidx hpm]; exact inv
  | some q =>
    have hqid : q.id = pid := inv.pmId _ _ hpm
    obtain ⟨b0, hb0, hqb⟩ := inv.pmInBucket _ _ hpm
    have hnd0 : (b0.map Peer.id).Nodup := inv.bucketIdsNodup _ _ hb0
    have hlen : (eraseFirstById b0 pid).length + 1 = b0.length :=
      length_eraseFirstById hqb hqid
    have hsub : (eraseFirstById b0 pid).Sublist b0 := eraseFirstById_sublist b0 pid
    have hne_mem : ∀ p ∈ eraseFirstById b0 pid, p.id ≠ pid :=
      fun p hp => id_ne_of_mem_eraseFirstById hnd0 hp
    by_cases hemp : (eraseFirstById b0 pid).isEmpty
    · rw [removePeer_eq_erase selfId bidx hpm hb0 hemp]
      have hb1nil : eraseFirstById b0 pid = [] := List.isEmpty_iff.1 hemp
      have hb0len : b0.length = 1 := by
        rw [hb1nil] at hlen
        simpa using hlen.symm
      constructor
      · exact nodup_keys_erase _ inv.nodupBKeys
      · exact nodup_keys_erase _ inv.nodupPKeys
      · intro id p h
        by_cases hid : id = pid
        · subst hid
          rw [mapLookup_erase_self inv.nodupPKeys] at h
          exact absurd h (by simp)
        · rw [mapLookup_erase_ne _ _ _ hid] at h
          exact inv.pmId _ _ h
      · intro id p h
        have hid : id ≠ pid := by
          intro he; subst he
          rw [mapLookup_erase_self inv.nodupPKeys] at h
          exact absurd h (by simp)
        rw [mapLookup_erase_ne _ _ _ hid] at h
        obtain ⟨b, hb, hpb⟩ := inv.pmInBucket _ _ h
        have hidx : bidx selfId id ≠ bidx selfId pid := by
          intro he
          rw [he, hb0] at hb
          have hbb : b0 = b := Option.some.inj hb
          rw [← hbb] at hpb
          have hpid : p.id = id := inv.pmId _ _ h
          have hmem : p ∈ eraseFirstById b0 pid :=
            mem_eraseFirstById_of_ne hpb (by rw [hpid]; exact hid)
          rw [hb1nil] at hmem
          exact absurd hmem (by simp)
        exact ⟨b, by rw [mapLookup_erase_ne _ _ _ hidx]; exact hb, hpb⟩
      · intro i b hb p hp
        have hi : i ≠ bidx selfId pid := by
          intro he; subst he
          rw [mapLookup_erase_self inv.nodupBKeys] at hb
          exact absurd hb (by simp)
        rw [mapLookup_erase_ne _ _ _ hi] at hb
        obtain ⟨h1, h2⟩ := inv.bucketSound _ _ hb p hp
        have hpne : p.id ≠ pid := by
          intro he; rw [he] at h1; exact hi h1.symm
        exact ⟨h1, by rw [mapLookup_erase_ne _ _ _ hpne]; exact h2⟩
      · intro i b hb
        have hi : i ≠ bidx selfId pid := by
          intro he; subst he
          rw [mapLookup_erase_self inv.nodupBKeys] at hb
          exact absurd hb (by simp)
        rw [mapLookup_erase_ne _ _ _ hi] at hb
        exact inv.bucketIdsNodup _ _ hb
      · intro i b hb
        have hi : i ≠ bidx selfId pid := by
          intro he; subst he
          rw [mapLookup_erase_self inv.nodupBKeys] at hb
          exact absurd hb (by simp)
        rw [mapLookup_erase_ne _ _ _ hi] at hb
        exact inv.bucketNonempty _ _ hb
      · intro i b hb
        have hi : i ≠ bidx selfId pid := by
          intro he; subst he
          rw [mapLookup_erase_self inv.nodupBKeys] at hb
          exact absurd hb (by simp)
        rw [mapLookup_erase_ne _ _ _ hi] at hb
        exact inv.bucketCap _ _ hb
      · have h1 : (mapErase st.peerMap pid).length + 1 = st.peerMap.length :=
          length_erase_of_lookup_some hpm
        have h2 : bucketsSize (mapErase st.buckets (bidx selfId pid)) + b0.length =
            bucketsSize st.buckets := bucketsSize_erase_some hb0
        have h3 := inv.countEq
        show (mapErase st.peerMap pid).length =
          bucketsSize (mapErase st.buckets (bidx selfId pid))
        omega
    · rw [removePeer_eq_shrink selfId bidx hpm hb0 hemp]
      have hb1ne : eraseFirstById b0 pid ≠ [] := by
        intro h; exact hemp (by rw [h]; rfl)
      constructor
      · exact nodup_keys_insert _ inv.nodupBKeys
      · exact nodup_keys_erase _ inv.nodupPKeys
      · intro id p h
        by_cases hid : id = pid
        · subst hid
          rw [mapLookup_erase_self inv.nodupPKeys] at h
          exact absurd h (by simp)
        · rw [mapLookup_erase_ne _ _ _ hid] at h
          exact inv.pmId _ _ h
      · intro id p h
        have hid : id ≠ pid := by
          intro he; subst he
          rw [mapLookup_erase_self inv.nodupPKeys] at h
          exact absurd h (by simp)
        rw [mapLookup_erase_ne _ _ _ hid] at h
        obtain ⟨b, hb, hpb⟩ := inv.pmInBucket _ _ h
        by_cases hidx : bidx selfId id = bidx selfId pid
        · rw [hidx, hb0] at hb
          have hbb : b0 = b := Option.some.inj hb
          rw [← hbb] at hpb
          have hpid : p.id = id := inv.pmId _ _ h
          refine ⟨eraseFirstById b0 pid, ?_, ?_⟩
          · rw [hidx, mapLookup_insert, if_pos rfl]
          · exact mem_eraseFirstById_of_ne hpb (by rw [hpid]; exact hid)
        · exact ⟨b, by rw [mapLookup_insert, if_neg hidx]; exact hb, hpb⟩
      · intro i b hb p hp
        rw [mapLookup_insert] at hb
        by_cases hi : i = bidx selfId pid
        · rw [if_pos hi] at hb
          have hbb : b = eraseFirstById b0 pid := Option.some.inj hb.symm
          subst hbb
          have hpb0 : p ∈ b0 := hsub.subset hp
          obtain ⟨h1, h2⟩ := inv.bucketSound _ _ hb0 p hpb0
          refine ⟨by rw [hi]; exact h1, ?_⟩
          rw [mapLookup_erase_ne _ _ _ (hne_mem p hp)]
          exact h2
        · rw [if_neg hi] at hb
          obtain ⟨h1, h2⟩ := inv.bucketSound _ _ hb p hp
          have hpne : p.id ≠ pid := by
            intro he; rw [he] at h1; exact hi (by rw [← h1])
          exact ⟨h1, by rw [mapLookup_erase_ne _ _ _ hpne]; exact h2⟩
      · intro i b hb
        rw [mapLookup_insert] at hb
        by_cases hi : i = bidx selfId pid
        · rw [if_pos hi] at hb
          have hbb : b = eraseFirstById b0 pid := Option.some.inj hb.symm
          subst hbb
          exact (hsub.map Peer.id).nodup hnd0
        · rw [if_neg hi] at hb
          exact inv.bucketIdsNodup _ _ hb
      · intro i b hb
        rw [mapLookup_insert] at hb
        by_cases hi : i = bidx selfId pid
        · rw [if_pos hi] at hb
          have hbb : b = eraseFirstById b0 pid := Option.some.inj hb.symm
          subst hbb
          exact hb1ne
        · rw [if_neg hi] at hb
          exact inv.bucketNonempty _ _ hb
      · intro i b hb
        rw [mapLookup_insert] at hb
        by_cases hi : i = bidx selfId pid
        · rw [if_pos hi] at hb
          have hbb : b = eraseFirstById b0 pid := Option.some.inj hb.symm
          subst hbb
          have := inv.bucketCap _ _ hb0
          omega
        · rw [if_neg hi] at hb
          exact inv.bucketCap _ _ hb
      · have h1 : (mapErase st.peerMap pid).length + 1 = st.peerMap.length :=
          length_erase_of_lookup_some hpm
        have h2 := bucketsSize_insert_some (eraseFirstById b0 pid) hb0
        have h3 := inv.countEq
        show (mapErase st.peerMap pid).length =
          bucketsSize (mapInsert st.buckets (bidx selfId pid) (eraseFirstById b0 pid))
        omega

theorem ftinv_pushed {st1 : FingerTableState σ} {peer : Peer σ} {b : List (Peer σ)}
    (inv : FTInv selfId bidx st1)
    (habs : mapLookup st1.peerMap peer.id = none)
    (hbs : mapLookup st1.buckets (bidx selfId peer.id) = some b ∨
           mapLookup st1.buckets (bidx selfId peer.id) = none ∧ b = [])
    (hlt : b.length < K_BUCKET_SIZE) :
    FTInv selfId bidx
      ⟨mapInsert st1.buckets (bidx selfId peer.id) (b ++ [peer]),
       mapInsert st1.peerMap peer.id peer⟩ := by
  have hmemb : ∀ p ∈ b, mapLookup st1.peerMap p.id = some p ∧
      bidx selfId p.id = bidx selfId peer.id := by
    intro p hp
    rcases hbs with hb | ⟨_, hbnil⟩
    · obtain ⟨h1, h2⟩ := inv.bucketSound _ _ hb p hp
      exact ⟨h2, h1⟩
    · rw [hbnil] at hp; exact absurd hp (by simp)
  have hbid_ne : ∀ p ∈ b, p.id ≠ peer.id := by
    intro p hp he
    have := (hmemb p hp).1
    rw [he, habs] at this
    exact absurd this (by simp)
  constructor
  · exact nodup_keys_insert _ inv.nodupBKeys
  · exact nodup_keys_insert _ inv.nodupPKeys
  · intro id p h
    rw [mapLookup_insert] at h
    by_cases hid : id = peer.id
    · rw [if_pos hid] at h
      have hpp : peer = p := Option.some.inj h
      subst hpp
      exact hid.symm
    · rw [if_neg hid] at h
      exact inv.pmId _ _ h
  · intro id p h
    rw [mapLookup_insert] at h
    by_cases hid : id = peer.id
    · rw [if_pos hid] at h
      have hpp : peer = p := Option.some.inj h
      subst hpp
      refine ⟨b ++ [peer], ?_, by simp⟩
      rw [hid, mapLookup_insert, if_pos rfl]
    · rw [if_neg hid] at h
      obtain ⟨bb, hbb, hpbb⟩ := inv.pmInBucket _ _ h
      by_cases hidx : bidx selfId id = bidx selfId peer.id
      · rcases hbs with hb | ⟨hb, _⟩
        · rw [hidx, hb] at hbb
          have hbbb : b = bb := Option.some.inj hbb
          rw [← hbbb] at hpbb
          refine ⟨b ++ [peer], ?_, by simp [hpbb]⟩
          rw [hidx, mapLookup_insert, if_pos rfl]
        · rw [hidx, hb] at hbb
          exact absurd hbb (by simp)
      · exact ⟨bb, by rw [mapLookup_insert, if_neg hidx]; exact hbb, hpbb⟩
  · intro i bb hbb p hp
    rw [mapLookup_insert] at hbb
    by_cases hi : i = bidx selfId peer.id
    · rw [if_pos hi] at hbb
      have hbbb : bb = b ++ [peer] := Option.some.inj hbb.symm
      subst hbbb
      rcases List.mem_append.1 hp with hpb | hpp
    -- the two membership cases are discharged below
      · obtain ⟨h2, h1⟩ := hmemb p hpb
        refine ⟨by rw [hi]; exact h1, ?_⟩
        rw [mapLookup_insert, if_neg (hbid_ne p hpb)]
        exact h2
      · have hpp2 : peer = p := (by simpa using hpp : p = peer).symm
        subst hpp2
        refine ⟨by rw [hi], ?_⟩
        rw [mapLookup_insert, if_pos rfl]
    · rw [if_neg hi] at hbb
      obtain ⟨h1, h2⟩ := inv.bucketSound _ _ hbb p hp
      have hpne : p.id ≠ peer.id := by
        intro he
        rw [he] at h2
        rw [habs] at h2
        exact absurd h2 (by simp)
      exact ⟨h1, by rw [mapLookup_insert, if_neg hpne]; exact h2⟩
  · intro i bb hbb
    rw [mapLookup_insert] at hbb
    by_cases hi : i = bidx selfId peer.id
    · rw [if_pos hi] at hbb
      have hbbb : bb = b ++ [peer] := Option.some.inj hbb.symm
      subst hbbb
      rw [List.map_append]
      refine List.Nodup.append ?_ (by simp) ?_
      · rcases hbs with hb | ⟨_, hbnil⟩
        · exact inv.bucketIdsNodup _ _ hb
        · rw [hbnil]
          exact List.nodup_nil
      · intro x hx hx2
        simp at hx2
        obtain ⟨p, hp, hpid⟩ := List.mem_map.1 hx
        exact hbid_ne p hp (hpid.trans hx2)
    · rw [if_neg hi] at hbb
      exact inv.bucketIdsNodup _ _ hbb
  · intro i bb hbb
    rw [mapLookup_insert] at hbb
    by_cases hi : i = bidx selfId peer.id
    · rw [if_pos hi] at hbb
      have hbbb : bb = b ++ [peer] := Option.some.inj hbb.symm
      subst hbbb
      simp
    · rw [if_neg hi] at hbb
      exact inv.bucketNonempty _ _ hbb
  · intro i bb hbb
    rw [mapLookup_insert] at hbb
    by_cases hi : i = bidx selfId peer.id
    · rw [if_pos hi] at hbb
      have hbbb : bb = b ++ [peer] := Option.some.inj hbb.symm
      subst hbbb
      rw [List.length_append]
      simp only [List.length_singleton]
      omega
    · rw [if_neg hi] at hbb
      exact inv.bucketCap _ _ hbb
  · have h1 : (mapInsert st1.peerMap peer.id peer).length = st1.peerMap.length + 1 :=
      length_insert_of_lookup_none peer habs
    have h3 := inv.countEq
    show (mapInsert st1.peerMap peer.id peer).length =
      bucketsSize (mapInsert st1.buckets (bidx selfId peer.id) (b ++ [peer]))
    rcases hbs with hb | ⟨hb, hbnil⟩
    · have h2 := bucketsSize_insert_some (b ++ [peer]) hb
      rw [List.length_append] at h2
      simp only [List.length_singleton] at h2
      omega
    · have h2 := bucketsSize_insert_none (b ++ [peer]) hb
      rw [List.length_append] at h2
      simp only [List.length_singleton] at h2
      subst hbnil
      simp only [List.length_nil] at h2 ⊢
      omega

theorem ftinv_addPeer {st : FingerTableState σ}
    (inv : FTInv selfId bidx st) (peer : Peer σ) :
    FTInv selfId bidx (addPeer selfId bidx st peer).1 := by
  by_cases hself : peer.id = selfId
  · rw [addPeer_eq_self selfId bidx hself]; exact inv
  · have key : ∀ st1 : FingerTableState σ, FTInv selfId bidx st1 →
        mapLookup st1.peerMap peer.id = none →
        FTInv selfId bidx (addPeerGo selfId bidx st1 peer).1 := by
      intro st1 inv1 habs
      cases hb : mapLookup st1.buckets (bidx selfId peer.id) with
      | none =>
        rw [addPeerGo_eq_push_none selfId bidx hb]
        exact ftinv_pushed selfId bidx inv1 habs (Or.inr ⟨hb, rfl⟩)
          (by simp [K_BUCKET_SIZE])
      | some b =>
        by_cases hfull : K_BUCKET_SIZE ≤ b.length
        · rw [addPeerGo_eq_reject selfId bidx hb hfull]; exact inv1
        · rw [addPeerGo_eq_push_some selfId bidx hb (by omega)]
          exact ftinv_pushed selfId bidx inv1 habs (Or.inl hb) (by omega)
    cases hpm : mapLookup st.peerMap peer.id with
    | none =>
      rw [addPeer_eq_fresh selfId bidx hself hpm]
      exact key st inv hpm
    | some q =>
      rw [addPeer_eq_present selfId bidx hself hpm]
      have inv1 := ftinv_removePeer selfId bidx inv peer.id
      have habs : mapLookup (removePeer selfId bidx st peer.id).peerMap peer.id = none := by
        rw [removePeer_peerMap selfId bidx hpm]
        exact mapLookup_erase_self inv.nodupPKeys
      exact key _ inv1 habs

end FingerTableProofs

/-! ## Auxiliary lemmas for the pending-get and message-queue machines -/

theorem runPendingGet_dead (lex : Lex) (dupTrack : String) (events : List GetEvent)
    (st : PendingGet) (h : st.live = false) :
    runPendingGet lex dupTrack st events = st := by
  induction events generalizing st with
  | nil => rfl
  | cons e rest ih =>
    unfold runPendingGet at ih ⊢
    rw [List.foldl_cons]
    have hstep : stepPendingGet lex dupTrack st e = st := by
      cases e with
      | ackArrive m => simp [stepPendingGet, h]
      | timeoutFire => simp [stepPendingGet, h]
    rw [hstep]
    exact ih st h

theorem mqRun_invariant (maxQueueLength : Nat) (events : List MQEvent) (st : MQState)
    (h : st.sent ++ st.queued = st.accepted) :
    (events.foldl (mqStep maxQueueLength) st).sent ++
      (events.foldl (mqStep maxQueueLength) st).queued =
      (events.foldl (mqStep maxQueueLength) st).accepted := by
  induction events generalizing st with
  | nil => exact h
  | cons e rest ih =>
    rw [List.foldl_cons]
    apply ih
    cases e with
    | enq m =>
      obtain ⟨q, snt, acc⟩ := st
      by_cases hf : maxQueueLength ≤ q.length
      · simpa [mqStep, hf] using h
      · simp only [mqStep, if_neg hf]
        simp only at h ⊢
        rw [← List.append_assoc, h]
    | drainStep =>
      obtain ⟨q, snt, acc⟩ := st
      cases q with
      | nil => simpa [mqStep] using h
      | cons m rest2 =>
        simp only [mqStep]
        simp only at h ⊢
        rw [List.append_assoc]
        simpa using h

/-! ## Claim theorems -/

/-- **C9**: after any sequence of `addPeer` and `removePeer` calls on a
fresh finger table, the structural invariant holds: every peer id in
`peerMap` occurs in exactly one bucket — the one at `XOR.bucketIndex(selfId,
id)` (fields `pmInBucket`, `bucketSound`, and key uniqueness); every peer
stored in a bucket is registered in `peerMap` under its id (`bucketSound`);
no bucket exceeds 20 peers (`bucketCap`); no empty bucket is retained
(`bucketNonempty`); and `count()` equals the total number of peers across
all buckets (`countEq`). -/
theorem c9_fingertable_invariant {σ : Type} (selfId : String)
    (bidx : String → String → Nat) (ops : List (FTOp σ)) :
    FTInv selfId bidx (applyFTOps selfId bidx ops) := by
  unfold applyFTOps
  have key : ∀ st : FingerTableState σ, FTInv selfId bidx st →
      FTInv selfId bidx (ops.foldl (applyFTOp selfId bidx) st) := by
    induction ops with
    | nil => intro st inv; exact inv
    | cons op rest ih =>
      intro st inv
      rw [List.foldl_cons]
      cases op with
      | add p => exact ih _ (ftinv_addPeer selfId bidx inv p)
      | remove i => exact ih _ (ftinv_removePeer selfId bidx inv i)
  exact key _ (ftinv_empty selfId bidx)

/-- **C6**: `addPeer` returns false and leaves the table unchanged on a
self-add; on a re-add it first removes the old entry and only then runs the
insertion logic; for a fresh id whose bucket already holds
`K_BUCKET_SIZE = 20` peers it returns false with the table unchanged,
preserving the existing peers; otherwise it appends the peer to its bucket,
registers it, and returns true (the bucket being created on demand). -/
theorem c6_addPeer_spec {σ : Type} (selfId : String) (bidx : String → String → Nat)
    (st : FingerTableState σ) (peer : Peer σ) :
    (peer.id = selfId → addPeer selfId bidx st peer = (st, false)) ∧
    (∀ q, peer.id ≠ selfId → mapLookup st.peerMap peer.id = some q →
      addPeer selfId bidx st peer =
        addPeerGo selfId bidx (removePeer selfId bidx st peer.id) peer) ∧
    (∀ b, peer.id ≠ selfId → mapLookup st.peerMap peer.id = none →
      mapLookup st.buckets (bidx selfId peer.id) = some b →
      K_BUCKET_SIZE ≤ b.length →
      addPeer selfId bidx st peer = (st, false)) ∧
    (∀ b, peer.id ≠ selfId → mapLookup st.peerMap peer.id = none →
      mapLookup st.buckets (bidx selfId peer.id) = some b →
      b.length < K_BUCKET_SIZE →
      addPeer selfId bidx st peer =
        (⟨mapInsert st.buckets (bidx selfId peer.id) (b ++ [peer]),
          mapInsert st.peerMap peer.id peer⟩, true)) ∧
    (peer.id ≠ selfId → mapLookup st.peerMap peer.id = none →
      mapLookup st.buckets (bidx selfId peer.id) = none →
      addPeer selfId bidx st peer =
        (⟨mapInsert st.buckets (bidx selfId peer.id) [peer],
          mapInsert st.peerMap peer.id peer⟩, true)) := by
  refine ⟨?_, ?_, ?_, ?_, ?_⟩
  · intro h; exact addPeer_eq_self selfId bidx h
  · intro q hne hpm; exact addPeer_eq_present selfId bidx hne hpm
  · intro b hne hpm hb hfull
    rw [addPeer_eq_fresh selfId bidx hne hpm]
    exact addPeerGo_eq_reject selfId bidx hb hfull
  · intro b hne hpm hb hlt
    rw [addPeer_eq_fresh selfId bidx hne hpm]
    exact addPeerGo_eq_push_some selfId bidx hb hlt
  · intro hne hpm hb
    rw [addPeer_eq_fresh selfId bidx hne hpm]
    exact addPeerGo_eq_push_none selfId bidx hb

/-- Witness for C6: adding a fresh peer to the empty table appends it to a
new bucket and returns true. -/
theorem c6_addPeer_spec_witness :
    addPeer "s" (fun _ _ => 0) (FingerTableState.empty : FingerTableState Unit)
        ⟨"p", ()⟩ =
      (⟨mapInsert (FingerTableState.empty : FingerTableState Unit).buckets 0
          [⟨"p", ()⟩],
        mapInsert (FingerTableState.empty : FingerTableState Unit).peerMap "p"
          ⟨"p", ()⟩⟩, true) :=
  (c6_addPeer_spec "s" (fun _ _ => 0) FingerTableState.empty ⟨"p", ()⟩).2.2.2.2
    (by decide) rfl rfl

/-- **C5**: the claim says the finger-table entry created on HELLO (keyed by
`hello.pub`) is destroyed when the peer's transport connection disconnects.
The code instead calls `removePeer` with the transport connection id
(line 406), while entries are keyed by the pub: at the concrete input below
— HELLO with `pub = "peerA"` arriving on connection `"conn1"`, then
`"conn1"` disconnecting — the entry for `"peerA"` is still present. -/
theorem c5_disconnect_leaves_hello_entry :
    getPeer
      (onDisconnection "self" (fun _ _ => 0)
        (handleMessage "self" (fun _ _ => 0) (fun _ _ _ => false) 0 true
          ⟨[], [], [], [], FingerTableState.empty, [], [], []⟩
          ⟨some "m1", none, some "peerA", none, none⟩ "conn1").1
        "conn1").finger "peerA" = some ⟨"peerA", ()⟩ := by
  rfl

/-- **C7**: the per-client limiter keeps a sliding 60 s window with a hard
cap of 1500 requests: below the cap the request is recorded and the delay is
0; at or above the cap the request is not recorded, the delay is
`max(0, window − (now − oldest in-window request))` and the throttle counter
is incremented; `shouldDisconnect` signals exactly when the counter has
reached 10. -/
theorem c7_rate_limiter_spec (clients : List (String × RLClient)) (now : Int)
    (clientId : String) :
    (((rlInWindow now (((mapLookup clients clientId).getD ⟨[], now, 0⟩).requests)).length
        < rlMaxRequests →
      rlGetDelay clients now clientId =
        (0, mapInsert clients clientId
          ⟨rlInWindow now (((mapLookup clients clientId).getD ⟨[], now, 0⟩).requests)
              ++ [now],
           ((mapLookup clients clientId).getD ⟨[], now, 0⟩).lastCleanup,
           ((mapLookup clients clientId).getD ⟨[], now, 0⟩).throttleCount⟩)) ∧
     (rlMaxRequests ≤
        (rlInWindow now (((mapLookup clients clientId).getD ⟨[], now, 0⟩).requests)).length →
      rlGetDelay clients now clientId =
        (max 0 (rlWindowMs -
            (now - listMin (rlInWindow now
              (((mapLookup clients clientId).getD ⟨[], now, 0⟩).requests)))),
         mapInsert clients clientId
          ⟨rlInWindow now (((mapLookup clients clientId).getD ⟨[], now, 0⟩).requests),
           ((mapLookup clients clientId).getD ⟨[], now, 0⟩).lastCleanup,
           ((mapLookup clients clientId).getD ⟨[], now, 0⟩).throttleCount + 1⟩))) ∧
    (rlShouldDisconnect clients clientId = true ↔
      ∃ c, mapLookup clients clientId = some c ∧ 10 ≤ c.throttleCount) := by
  refine ⟨⟨?_, ?_⟩, ?_⟩
  · intro h
    have hnot : ¬ rlMaxRequests ≤
        (rlInWindow now (((mapLookup clients clientId).getD ⟨[], now, 0⟩).requests)).length := by
      omega
    simp only [rlGetDelay, if_neg hnot]
  · intro h
    simp only [rlGetDelay, if_pos h]
  · unfold rlShouldDisconnect
    cases h : mapLookup clients clientId with
    | none => simp
    | some c =>
      simp only [Option.some.injEq, decide_eq_true_eq]
      constructor
      · intro hc; exact ⟨c, rfl, hc⟩
      · rintro ⟨c2, hc2, hge⟩
        rw [hc2]
        exact hge

/-- Witness for C7: a first request from an unknown client is recorded and
delayed by 0. -/
theorem c7_rate_limiter_spec_witness :
    rlGetDelay [] 0 "c" = (0, mapInsert [] "c" ⟨[0], 0, 0⟩) :=
  (c7_rate_limiter_spec [] 0 "c").1.1 (by decide)

/-- **C8**: the outbound queue is FIFO: over any event sequence the messages
handed to the transport are exactly a prefix, in order, of the successfully
enqueued messages (so the 10 ms pacing between consecutive sends never
reorders two enqueued messages), and the pacing constant is 10 ms. -/
theorem c8_message_queue_fifo (maxQueueLength : Nat) (events : List MQEvent) :
    (mqRun maxQueueLength events).sent ++ (mqRun maxQueueLength events).queued =
      (mqRun maxQueueLength events).accepted ∧
    (mqRun maxQueueLength events).sent <+: (mqRun maxQueueLength events).accepted ∧
    pacingDelayMs = 10 := by
  have h1 := mqRun_invariant maxQueueLength events MQState.empty rfl
  exact ⟨h1, ⟨_, h1⟩, rfl⟩

/-- **C2**: a get satisfied neither from the local graph nor from the store
fires nothing synchronously, registers its queue entry, and schedules the
timeout for `opts.wait || 100` ms (100 by default); if the timeout fires
before any ACK, the callback fires exactly once — with the null-valued
subgraph: the soul mapped to null, or to the single null-valued field when
the lex carries an exact field string — and the queue entry is removed,
after which late events fire nothing. -/
theorem c2_get_timeout_null (lex : Lex) (dupTrack : String) (storeErr : Option String)
    (optWait : Option Nat) (rest : List GetEvent) :
    (getWithCallbackOutcome none none storeErr none optWait).firedNow = [] ∧
    (getWithCallbackOutcome none none storeErr none optWait).registered = true ∧
    (getWithCallbackOutcome none none storeErr none optWait).timeoutMs =
      some (waitMsOf optWait) ∧
    waitMsOf none = 100 ∧
    runPendingGet lex dupTrack ⟨true, []⟩ (GetEvent.timeoutFire :: rest) =
      ⟨false, [timeoutMsg lex dupTrack]⟩ ∧
    (∀ f, lex.field = some (LexField.exact f) →
      (timeoutMsg lex dupTrack).put = some (AckPayload.fieldNullFor lex.soul f)) ∧
    (lex.field = none →
      (timeoutMsg lex dupTrack).put = some (AckPayload.nullFor lex.soul)) := by
  refine ⟨rfl, rfl, rfl, rfl, ?_, ?_, ?_⟩
  · unfold runPendingGet
    rw [List.foldl_cons]
    have hstep : stepPendingGet lex dupTrack ⟨true, []⟩ GetEvent.timeoutFire =
        ⟨false, [timeoutMsg lex dupTrack]⟩ := by
      simp [stepPendingGet]
    rw [hstep]
    exact runPendingGet_dead lex dupTrack rest _ rfl
  · intro f hf
    simp [timeoutMsg, nullAckPayload, hf]
  · intro hf
    simp [timeoutMsg, nullAckPayload, hf]

/-- Witness for C2: with no field selector, the timeout message carries the
soul mapped to null, and a timeout followed by a late ACK fires only the
null subgraph. -/
theorem c2_get_timeout_null_witness :
    runPendingGet ⟨"s", none⟩ "t" ⟨true, []⟩
        (GetEvent.timeoutFire :: [GetEvent.ackArrive ⟨none, none, none, none⟩]) =
      ⟨false, [timeoutMsg ⟨"s", none⟩ "t"]⟩ ∧
    (timeoutMsg ⟨"s", none⟩ "t").put = some (AckPayload.nullFor "s") :=
  ⟨(c2_get_timeout_null ⟨"s", none⟩ "t" none none
      [GetEvent.ackArrive ⟨none, none, none, none⟩]).2.2.2.2.1,
   (c2_get_timeout_null ⟨"s", none⟩ "t" none none []).2.2.2.2.2.2 rfl⟩

/-- **C10**: in local-only mode (no transport, no transport server) the send
function returns no error marker, so a get that misses both the in-memory
graph and the store registers its entry, schedules the `opts.wait || 100` ms
timeout (100 by default), and — the timeout firing — the callback fires
exactly once, with the null-valued subgraph and never with a transport
error. -/
theorem c10_local_only_get (r : String) (lex : Lex) (dupTrack : String)
    (storeErr : Option String) (optWait : Option Nat) (rest : List GetEvent) :
    localOnlySendResult r = none ∧
    getWithCallbackOutcome none none storeErr (localOnlySendResult r) optWait =
      ⟨[], true, some (waitMsOf optWait)⟩ ∧
    waitMsOf none = 100 ∧
    (runPendingGet lex dupTrack ⟨true, []⟩ (GetEvent.timeoutFire :: rest)).fired =
      [timeoutMsg lex dupTrack] ∧
    (∀ m, m ∈ (runPendingGet lex dupTrack ⟨true, []⟩
        (GetEvent.timeoutFire :: rest)).fired → m.err = none) := by
  have hrun : runPendingGet lex dupTrack ⟨true, []⟩ (GetEvent.timeoutFire :: rest) =
      ⟨false, [timeoutMsg lex dupTrack]⟩ := by
    unfold runPendingGet
    rw [List.foldl_cons]
    have hstep : stepPendingGet lex dupTrack ⟨true, []⟩ GetEvent.timeoutFire =
        ⟨false, [timeoutMsg lex dupTrack]⟩ := by
      simp [stepPendingGet]
    rw [hstep]
    exact runPendingGet_dead lex dupTrack rest _ rfl
  refine ⟨rfl, rfl, rfl, by rw [hrun], ?_⟩
  intro m hm
  rw [hrun] at hm
  simp only [List.mem_singleton] at hm
  rw [hm]
  rfl

/-- Witness for C10: at a concrete local-only get, the single fired message
is the null subgraph and carries no error. -/
theorem c10_local_only_get_witness :
    (runPendingGet ⟨"s", none⟩ "t" ⟨true, []⟩ [GetEvent.timeoutFire]).fired =
      [timeoutMsg ⟨"s", none⟩ "t"] ∧
    (timeoutMsg ⟨"s", none⟩ "t").err = none := by
  refine ⟨(c10_local_only_get "x" ⟨"s", none⟩ "t" none none []).2.2.2.1, ?_⟩
  exact (c10_local_only_get "x" ⟨"s", none⟩ "t" none none []).2.2.2.2
    (timeoutMsg ⟨"s", none⟩ "t")
    (by rw [(c10_local_only_get "x" ⟨"s", none⟩ "t" none none []).2.2.2.1]
        exact List.mem_singleton_self _)

/-- **C3**: an inbound message whose id is missing, or whose id is already
in the Dup seen set, is dropped without any processing: no HELLO, GET, PUT
or ACK handler runs, and the graph, queue, listen map, pendingReferences,
finger table, Dup set, store contents and write log are all unchanged. -/
theorem c3_dedup_drop (selfId : String) (bidx : String → String → Nat)
    (verify : String → GraphValue → String → Bool) (now : Int)
    (checkOk : Bool) (st : CoreState) (msg : InMsg) (clientId : String)
    (h : msg.id = none ∨ ∃ mid, msg.id = some mid ∧ st.dupIds.contains mid = true) :
    handleMessage selfId bidx verify now checkOk st msg clientId = (st, []) := by
  rcases h with h | ⟨mid, hid, hdup⟩
  · unfold handleMessage
    rw [h]
  · unfold handleMessage
    rw [hid]
    exact if_pos hdup

/-! ## HAM lemmas -/

theorem nodeOfTriples_fields_lookup (soul : String) (sigs : List (Int × String))
    (ts : List (String × GraphValue × Int)) (f : String) :
    mapLookup (nodeOfTriples soul sigs ts).fields f =
      (mapLookup ts f).map (fun p => p.1) := by
  induction ts with
  | nil => rfl
  | cons t rest ih =>
    obtain ⟨f0, v0, s0⟩ := t
    by_cases h : f = f0
    · subst h
      simp [nodeOfTriples, mapLookup]
    · simp only [nodeOfTriples, List.map_cons, mapLookup, if_neg h] at ih ⊢
      exact ih

theorem nodeOfTriples_states_lookup (soul : String) (sigs : List (Int × String))
    (ts : List (String × GraphValue × Int)) (f : String) :
    mapLookup (nodeOfTriples soul sigs ts).states f =
      (mapLookup ts f).map (fun p => p.2) := by
  induction ts with
  | nil => rfl
  | cons t rest ih =>
    obtain ⟨f0, v0, s0⟩ := t
    by_cases h : f = f0
    · subst h
      simp [nodeOfTriples, mapLookup]
    · simp only [nodeOfTriples, List.map_cons, mapLookup, if_neg h] at ih ⊢
      exact ih

theorem mixFields_acc_keys_sub {now : Int} {g : Graph} {soul : String}
    {states : List (String × Int)} {fields : List (String × GraphValue)} {x : String}
    (h : x ∈ mapKeys (mixFields now g soul states fields).acc) :
    x ∈ mapKeys fields := by
  induction fields with
  | nil => simp [mixFields] at h
  | cons fv rest ih =>
    obtain ⟨f0, v0⟩ := fv
    rw [mapKeys_cons]
    cases hs : mapLookup states f0 with
    | none =>
      simp only [mixFields, hs] at h
      exact List.mem_cons_of_mem _ (ih h)
    | some s0 =>
      by_cases h1 : now + dayMs < s0
      · simp only [mixFields, hs, if_pos h1] at h
        exact List.mem_cons_of_mem _ (ih h)
      · by_cases h2 : now < s0
        · simp only [mixFields, hs, if_neg h1, if_pos h2] at h
          exact List.mem_cons_of_mem _ (ih h)
        · by_cases h3 : hamAccepts g soul f0 s0 v0
          · simp only [mixFields, hs, if_neg h1, if_neg h2, if_pos h3,
              mapKeys_cons, List.mem_cons] at h
            rcases h with h | h
            · rw [h]; exact List.mem_cons_self f0 _
            · exact List.mem_cons_of_mem _ (ih h)
          · simp only [mixFields, hs, if_neg h1, if_neg h2, if_neg h3] at h
            exact List.mem_cons_of_mem _ (ih h)

theorem mixFields_dfr_keys_sub {now : Int} {g : Graph} {soul : String}
    {states : List (String × Int)} {fields : List (String × GraphValue)} {x : String}
    (h : x ∈ mapKeys (mixFields now g soul states fields).dfr) :
    x ∈ mapKeys fields := by
  induction fields with
  | nil => simp [mixFields] at h
  | cons fv rest ih =>
    obtain ⟨f0, v0⟩ := fv
    rw [mapKeys_cons]
    cases hs : mapLookup states f0 with
    | none =>
      simp only [mixFields, hs] at h
      exact List.mem_cons_of_mem _ (ih h)
    | some s0 =>
      by_cases h1 : now + dayMs < s0
      · simp only [mixFields, hs, if_pos h1] at h
        exact List.mem_cons_of_mem _ (ih h)
      · by_cases h2 : now < s0
        · simp only [mixFields, hs, if_neg h1, if_pos h2,
            mapKeys_cons, List.mem_cons] at h
          rcases h with h | h
          · rw [h]; exact List.mem_cons_self f0 _
          · exact List.mem_cons_of_mem _ (ih h)
        · by_cases h3 : hamAccepts g soul f0 s0 v0
          · simp only [mixFields, hs, if_neg h1, if_neg h2, if_pos h3] at h
            exact List.mem_cons_of_mem _ (ih h)
          · simp only [mixFields, hs, if_neg h1, if_neg h2, if_neg h3] at h
            exact List.mem_cons_of_mem _ (ih h)

theorem mixFields_acc_lookup {now : Int} {g : Graph} {soul : String}
    {states : List (String × Int)} {fields : List (String × GraphValue)}
    {f : String} {s : Int} {v : GraphValue}
    (hndf : (mapKeys fields).Nodup)
    (hv : mapLookup fields f = some v) (hs : mapLookup states f = some s)
    (h1 : ¬ now + dayMs < s) (h2 : ¬ now < s)
    (hacc : hamAccepts g soul f s v = true) :
    mapLookup (mixFields now g soul states fields).acc f = some (v, s) := by
  induction fields with
  | nil => simp [mapLookup] at hv
  | cons fv rest ih =>
    obtain ⟨f0, v0⟩ := fv
    rw [mapKeys_cons, List.nodup_cons] at hndf
    by_cases hf : f = f0
    · subst hf
      simp [mapLookup] at hv
      subst hv
      simp [mixFields, hs, if_neg h1, if_neg h2, hacc, mapLookup]
    · simp only [mapLookup, if_neg hf] at hv
      have ihh := ih hndf.2 hv
      cases hs0 : mapLookup states f0 with
      | none => simp only [mixFields, hs0]; exact ihh
      | some s0 =>
        by_cases hb1 : now + dayMs < s0
        · simp only [mixFields, hs0, if_pos hb1]; exact ihh
        · by_cases hb2 : now < s0
          · simp only [mixFields, hs0, if_neg hb1, if_pos hb2]; exact ihh
          · by_cases hb3 : hamAccepts g soul f0 s0 v0
            · simp only [mixFields, hs0, if_neg hb1, if_neg hb2, if_pos hb3,
                mapLookup, if_neg hf]
              exact ihh
            · simp only [mixFields, hs0, if_neg hb1, if_neg hb2, if_neg hb3]
              exact ihh

theorem mixFields_dfr_lookup {now : Int} {g : Graph} {soul : String}
    {states : List (String × Int)} {fields : List (String × GraphValue)}
    {f : String} {s : Int} {v : GraphValue}
    (hndf : (mapKeys fields).Nodup)
    (hv : mapLookup fields f = some v) (hs : mapLookup states f = some s)
    (h1 : ¬ now + dayMs < s) (h2 : now < s) :
    mapLookup (mixFields now g soul states fields).dfr f = some (v, s) := by
  induction fields with
  | nil => simp [mapLookup] at hv
  | cons fv rest ih =>
    obtain ⟨f0, v0⟩ := fv
    rw [mapKeys_cons, List.nodup_cons] at hndf
    by_cases hf : f = f0
    · subst hf
      simp [mapLookup] at hv
      subst hv
      simp [mixFields, hs, if_neg h1, if_pos h2, mapLookup]
    · simp only [mapLookup, if_neg hf] at hv
      have ihh := ih hndf.2 hv
      cases hs0 : mapLookup states f0 with
      | none => simp only [mixFields, hs0]; exact ihh
      | some s0 =>
        by_cases hb1 : now + dayMs < s0
        · simp only [mixFields, hs0, if_pos hb1]; exact ihh
        · by_cases hb2 : now < s0
          · simp only [mixFields, hs0, if_neg hb1, if_pos hb2, mapLookup,
              if_neg hf]
            exact ihh
          · by_cases hb3 : hamAccepts g soul f0 s0 v0
            · simp only [mixFields, hs0, if_neg hb1, if_neg hb2, if_pos hb3]
              exact ihh
            · simp only [mixFields, hs0, if_neg hb1, if_neg hb2, if_neg hb3]
              exact ihh

theorem mixFields_toofar {now : Int} {g : Graph} {soul : String}
    {states : List (String × Int)} {fields : List (String × GraphValue)}
    {f : String} {s : Int}
    (hndf : (mapKeys fields).Nodup)
    (hs : mapLookup states f = some s) (htf : now + dayMs < s) :
    mapLookup (mixFields now g soul states fields).acc f = none ∧
    mapLookup (mixFields now g soul states fields).dfr f = none := by
  induction fields with
  | nil => exact ⟨rfl, rfl⟩
  | cons fv rest ih =>
    obtain ⟨f0, v0⟩ := fv
    rw [mapKeys_cons, List.nodup_cons] at hndf
    by_cases hf : f = f0
    · subst hf
      simp only [mixFields, hs, if_pos htf]
      constructor
      · apply lookup_eq_none_of_not_mem_keys
        intro hmem
        exact hndf.1 (mixFields_acc_keys_sub hmem)
      · apply lookup_eq_none_of_not_mem_keys
        intro hmem
        exact hndf.1 (mixFields_dfr_keys_sub hmem)
    · have ihh := ih hndf.2
      cases hs0 : mapLookup states f0 with
      | none => simp only [mixFields, hs0]; exact ihh
      | some s0 =>
        by_cases hb1 : now + dayMs < s0
        · simp only [mixFields, hs0, if_pos hb1]; exact ihh
        · by_cases hb2 : now < s0
          · simp only [mixFields, hs0, if_neg hb1, if_pos hb2, mapLookup,
              if_neg hf]
            exact ihh
          · by_cases hb3 : hamAccepts g soul f0 s0 v0
            · simp only [mixFields, hs0, if_neg hb1, if_neg hb2, if_pos hb3,
                mapLookup, if_neg hf]
              exact ihh
            · simp only [mixFields, hs0, if_neg hb1, if_neg hb2, if_neg hb3]
              exact ihh

theorem mixFields_dfr_wait {now : Int} {g : Graph} {soul : String}
    {states : List (String × Int)} {fields : List (String × GraphValue)}
    {t : String × GraphValue × Int}
    (h : t ∈ (mixFields now g soul states fields).dfr) :
    ∃ w, (mixFields now g soul states fields).wait = some w ∧ w ≤ t.2.2 - now := by
  induction fields with
  | nil => simp [mixFields] at h
  | cons fv rest ih =>
    obtain ⟨f0, v0⟩ := fv
    cases hs0 : mapLookup states f0 with
    | none => simp only [mixFields, hs0] at h ⊢; exact ih h
    | some s0 =>
      by_cases hb1 : now + dayMs < s0
      · simp only [mixFields, hs0, if_pos hb1] at h ⊢
        exact ih h
      · by_cases hb2 : now < s0
        · simp only [mixFields, hs0, if_neg hb1, if_pos hb2, List.mem_cons] at h ⊢
          rcases h with h | h
          · subst h
            cases hw : (mixFields now g soul states rest).wait with
            | none => exact ⟨s0 - now, by simp [minDelay, hw], le_refl _⟩
            | some wr =>
              exact ⟨min (s0 - now) wr, by simp [minDelay, hw], min_le_left _ _⟩
          · obtain ⟨w, hw, hle⟩ := ih h
            rw [hw]
            exact ⟨min (s0 - now) w, by simp [minDelay], le_trans (min_le_right _ _) hle⟩
        · by_cases hb3 : hamAccepts g soul f0 s0 v0
          · simp only [mixFields, hs0, if_neg hb1, if_neg hb2, if_pos hb3] at h ⊢
            exact ih h
          · simp only [mixFields, hs0, if_neg hb1, if_neg hb2, if_neg hb3] at h ⊢
            exact ih h

theorem mixFields_wait_attained {now : Int} {g : Graph} {soul : String}
    {states : List (String × Int)} {fields : List (String × GraphValue)} {w : Int}
    (h : (mixFields now g soul states fields).wait = some w) :
    ∃ t, t ∈ (mixFields now g soul states fields).dfr ∧ t.2.2 - now = w := by
  induction fields generalizing w with
  | nil => simp [mixFields] at h
  | cons fv rest ih =>
    obtain ⟨f0, v0⟩ := fv
    cases hs0 : mapLookup states f0 with
    | none =>
      simp only [mixFields, hs0] at h ⊢
      exact ih h
    | some s0 =>
      by_cases hb1 : now + dayMs < s0
      · simp only [mixFields, hs0, if_pos hb1] at h ⊢
        exact ih h
      · by_cases hb2 : now < s0
        · simp only [mixFields, hs0, if_neg hb1, if_pos hb2] at h ⊢
          cases hw : (mixFields now g soul states rest).wait with
          | none =>
            rw [hw] at h
            simp only [minDelay, Option.some.injEq] at h
            exact ⟨(f0, v0, s0), List.mem_cons_self _ _, h⟩
          | some wr =>
            rw [hw] at h
            simp only [minDelay, Option.some.injEq] at h
            by_cases hmin : s0 - now ≤ wr
            · refine ⟨(f0, v0, s0), List.mem_cons_self _ _, ?_⟩
              rw [← h]
              exact (min_eq_left hmin).symm
            · obtain ⟨t, ht, hts⟩ := ih hw
              refine ⟨t, List.mem_cons_of_mem _ ht, ?_⟩
              rw [hts, ← h]
              exact (min_eq_right (by omega)).symm
        · by_cases hb3 : hamAccepts g soul f0 s0 v0
          · simp only [mixFields, hs0, if_neg hb1, if_neg hb2, if_pos hb3] at h ⊢
            exact ih h
          · simp only [mixFields, hs0, if_neg hb1, if_neg hb2, if_neg hb3] at h ⊢
            exact ih h

theorem advanceFields_keys_sublist (verify : String → GraphValue → String → Bool)
    (soul : String) (node : Node) :
    (mapKeys (advanceFields verify soul node)).Sublist (mapKeys node.fields) := by
  unfold advanceFields
  by_cases h1 : "~@".data.isPrefixOf soul.data = true
  · rw [if_pos h1]
    exact (List.filter_sublist _).map _
  · rw [if_neg h1]
    by_cases h2 : "~".data.isPrefixOf soul.data = true
    · rw [if_pos h2]
      by_cases h3 : mapLookup node.fields "pub" =
          some (GraphValue.str (soul.drop 1))
      · rw [if_pos h3]
        exact (List.filter_sublist _).map _
      · rw [if_neg h3]
        exact List.nil_sublist _
    · rw [if_neg h2]

theorem advanceFields_keys_nodup {verify : String → GraphValue → String → Bool}
    {soul : String} {node : Node} (h : (mapKeys node.fields).Nodup) :
    (mapKeys (advanceFields verify soul node)).Nodup :=
  (advanceFields_keys_sublist verify soul node).nodup h

theorem mixChange_nowG_keys_sub {verify : String → GraphValue → String → Bool}
    {now : Int} {change : Graph} {x : String} :
    ∀ g : Graph, x ∈ mapKeys (mixChange verify now g change).nowG →
      x ∈ mapKeys change := by
  induction change with
  | nil => intro g h; simp [mixChange] at h
  | cons sn rest ih =>
    intro g h
    obtain ⟨soul, node⟩ := sn
    rw [mapKeys_cons]
    simp only [mixChange] at h
    by_cases hacc : (mixFields now g soul node.states
        (advanceFields verify soul node)).acc.isEmpty = true
    · rw [if_pos hacc] at h
      exact List.mem_cons_of_mem _ (ih _ h)
    · rw [if_neg hacc] at h
      rw [mapKeys_cons, List.mem_cons] at h
      rcases h with h | h
      · rw [h]; exact List.mem_cons_self soul _
      · exact List.mem_cons_of_mem _ (ih _ h)

theorem mixChange_defer_keys_sub {verify : String → GraphValue → String → Bool}
    {now : Int} {change : Graph} {x : String} :
    ∀ g : Graph, x ∈ mapKeys (mixChange verify now g change).defer →
      x ∈ mapKeys change := by
  induction change with
  | nil => intro g h; simp [mixChange] at h
  | cons sn rest ih =>
    intro g h
    obtain ⟨soul, node⟩ := sn
    rw [mapKeys_cons]
    simp only [mixChange] at h
    by_cases hdfr : (mixFields now g soul node.states
        (advanceFields verify soul node)).dfr.isEmpty = true
    · rw [if_pos hdfr] at h
      exact List.mem_cons_of_mem _ (ih _ h)
    · rw [if_neg hdfr] at h
      rw [mapKeys_cons, List.mem_cons] at h
      rcases h with h | h
      · rw [h]; exact List.mem_cons_self soul _
      · exact List.mem_cons_of_mem _ (ih _ h)

theorem applyAccepted_lookup_ne {g : Graph} {soulX soul : String}
    (h : soul ≠ soulX) (ts : List (String × GraphValue × Int)) :
    mapLookup (applyAccepted g soulX ts) soul = mapLookup g soul := by
  unfold applyAccepted
  rw [mapLookup_insert, if_neg h]

theorem hamAccepts_eq_of_lookup_eq {g g2 : Graph} {soul f : String} {s : Int}
    {v : GraphValue} (h : mapLookup g2 soul = mapLookup g soul) :
    hamAccepts g2 soul f s v = hamAccepts g soul f s v := by
  unfold hamAccepts currentState currentValue
  rw [h]

theorem mixChange_toofar {verify : String → GraphValue → String → Bool}
    {now : Int} {change : Graph} {soul : String} {node : Node}
    {f : String} {s : Int}
    (hnd : (mapKeys change).Nodup) (hndf : (mapKeys node.fields).Nodup)
    (hn : mapLookup change soul = some node)
    (hs : mapLookup node.states f = some s) (htf : now + dayMs < s) :
    ∀ g : Graph,
      (∀ n', mapLookup (mixChange verify now g change).nowG soul = some n' →
        mapLookup n'.fields f = none) ∧
      (∀ n', mapLookup (mixChange verify now g change).defer soul = some n' →
        mapLookup n'.fields f = none) := by
  induction change with
  | nil => intro g; simp [mapLookup] at hn
  | cons sn rest ih =>
    intro g
    obtain ⟨s0, n0⟩ := sn
    rw [mapKeys_cons, List.nodup_cons] at hnd
    by_cases hsoul : soul = s0
    · subst hsoul
      have hnode : n0 = node := by
        simp [mapLookup] at hn
        exact hn
      subst hnode
      have hndf1 : (mapKeys (advanceFields verify soul n0)).Nodup :=
        advanceFields_keys_nodup hndf
      constructor
      · intro n' h
        simp only [mixChange] at h
        by_cases hacc : (mixFields now g soul n0.states
            (advanceFields verify soul n0)).acc.isEmpty = true
        · rw [if_pos hacc] at h
          exact absurd (mixChange_nowG_keys_sub _ (mem_keys_of_lookup h)) hnd.1
        · rw [if_neg hacc] at h
          simp [mapLookup] at h
          rw [← h, nodeOfTriples_fields_lookup, (mixFields_toofar hndf1 hs htf).1]
          rfl
      · intro n' h
        simp only [mixChange] at h
        by_cases hdfr : (mixFields now g soul n0.states
            (advanceFields verify soul n0)).dfr.isEmpty = true
        · rw [if_pos hdfr] at h
          exact absurd (mixChange_defer_keys_sub _ (mem_keys_of_lookup h)) hnd.1
        · rw [if_neg hdfr] at h
          simp [mapLookup] at h
          rw [← h, nodeOfTriples_fields_lookup, (mixFields_toofar hndf1 hs htf).2]
          rfl
    · have hn2 : mapLookup rest soul = some node := by
        simp only [mapLookup, if_neg hsoul] at hn
        exact hn
      have ihg := ih hnd.2 hn2
      constructor
      · intro n' h
        simp only [mixChange] at h
        by_cases hacc : (mixFields now g s0 n0.states
            (advanceFields verify s0 n0)).acc.isEmpty = true
        · rw [if_pos hacc] at h
          exact (ihg _).1 n' h
        · rw [if_neg hacc] at h
          simp only [mapLookup, if_neg hsoul] at h
          exact (ihg _).1 n' h
      · intro n' h
        simp only [mixChange] at h
        by_cases hdfr : (mixFields now g s0 n0.states
            (advanceFields verify s0 n0)).dfr.isEmpty = true
        · rw [if_pos hdfr] at h
          exact (ihg _).2 n' h
        · rw [if_neg hdfr] at h
          simp only [mapLookup, if_neg hsoul] at h
          exact (ihg _).2 n' h

theorem mixChange_defer_lookup {verify : String → GraphValue → String → Bool}
    {now : Int} {change : Graph} {soul : String}
    {node : Node} {f : String} {s : Int} {v : GraphValue}
    (hnd : (mapKeys change).Nodup) (hndf : (mapKeys node.fields).Nodup)
    (hn : mapLookup change soul = some node)
    (hs : mapLookup node.states f = some s)
    (hv : mapLookup (advanceFields verify soul node) f = some v)
    (h2 : now < s) (h1 : s ≤ now + dayMs) :
    ∀ g : Graph,
      ∃ dn, mapLookup (mixChange verify now g change).defer soul = some dn ∧
        mapLookup dn.fields f = some v ∧ mapLookup dn.states f = some s := by
  induction change with
  | nil => intro g; simp [mapLookup] at hn
  | cons sn rest ih =>
    intro g
    obtain ⟨s0, n0⟩ := sn
    rw [mapKeys_cons, List.nodup_cons] at hnd
    by_cases hsoul : soul = s0
    · subst hsoul
      have hnode : n0 = node := by
        simp [mapLookup] at hn
        exact hn
      subst hnode
      have hndf1 : (mapKeys (advanceFields verify soul n0)).Nodup :=
        advanceFields_keys_nodup hndf
      have hlk := @mixFields_dfr_lookup now g soul n0.states
        (advanceFields verify soul n0) f s v hndf1 hv hs (by omega) h2
      have hne : ¬ (mixFields now g soul n0.states
          (advanceFields verify soul n0)).dfr.isEmpty = true := by
        intro hemp
        rw [List.isEmpty_iff.1 hemp] at hlk
        exact absurd hlk (by simp [mapLookup])
      refine ⟨nodeOfTriples soul n0.sigs
        (mixFields now g soul n0.states (advanceFields verify soul n0)).dfr,
        ?_, ?_, ?_⟩
      · simp only [mixChange]
        rw [if_neg hne]
        simp [mapLookup]
      · rw [nodeOfTriples_fields_lookup, hlk]
        rfl
      · rw [nodeOfTriples_states_lookup, hlk]
        rfl
    · have hn2 : mapLookup rest soul = some node := by
        simp only [mapLookup, if_neg hsoul] at hn
        exact hn
      have ihg := ih hnd.2 hn2
      obtain ⟨dn, hdn, hdf, hds⟩ := ihg _
      refine ⟨dn, ?_, hdf, hds⟩
      simp only [mixChange]
      by_cases hdfr : (mixFields now g s0 n0.states
          (advanceFields verify s0 n0)).dfr.isEmpty = true
      · rw [if_pos hdfr]
        exact hdn
      · rw [if_neg hdfr]
        simp only [mapLookup, if_neg hsoul]
        exact hdn

theorem mixChange_accepts {verify : String → GraphValue → String → Bool}
    {now : Int} {change : Graph} {soul : String}
    {node : Node} {f : String} {s : Int} {v : GraphValue}
    (hnd : (mapKeys change).Nodup) (hndf : (mapKeys node.fields).Nodup)
    (hn : mapLookup change soul = some node)
    (hs : mapLookup node.states f = some s)
    (hv : mapLookup (advanceFields verify soul node) f = some v)
    (hsle : s ≤ now) :
    ∀ g : Graph, hamAccepts g soul f s v = true →
      ∃ n', mapLookup (mixChange verify now g change).nowG soul = some n' ∧
        mapLookup n'.fields f = some v ∧ mapLookup n'.states f = some s := by
  induction change with
  | nil => intro g _; simp [mapLookup] at hn
  | cons sn rest ih =>
    intro g hacc
    obtain ⟨s0, n0⟩ := sn
    rw [mapKeys_cons, List.nodup_cons] at hnd
    by_cases hsoul : soul = s0
    · subst hsoul
      have hnode : n0 = node := by
        simp [mapLookup] at hn
        exact hn
      subst hnode
      have h1 : ¬ now + dayMs < s := by simp only [dayMs]; omega
      have h2 : ¬ now < s := by omega
      have hndf1 : (mapKeys (advanceFields verify soul n0)).Nodup :=
        advanceFields_keys_nodup hndf
      have hlk := @mixFields_acc_lookup now g soul n0.states
        (advanceFields verify soul n0) f s v hndf1 hv hs h1 h2 hacc
      have hne : ¬ (mixFields now g soul n0.states
          (advanceFields verify soul n0)).acc.isEmpty = true := by
        intro hemp
        rw [List.isEmpty_iff.1 hemp] at hlk
        exact absurd hlk (by simp [mapLookup])
      refine ⟨nodeOfTriples soul n0.sigs
        (mixFields now g soul n0.states (advanceFields verify soul n0)).acc,
        ?_, ?_, ?_⟩
      · simp only [mixChange]
        rw [if_neg hne]
        simp [mapLookup]
      · rw [nodeOfTriples_fields_lookup, hlk]
        rfl
      · rw [nodeOfTriples_states_lookup, hlk]
        rfl
    · have hn2 : mapLookup rest soul = some node := by
        simp only [mapLookup, if_neg hsoul] at hn
        exact hn
      have hlkeq : ∀ g1 : Graph, mapLookup g1 soul = mapLookup g soul →
          ∃ n', mapLookup (mixChange verify now g1 rest).nowG soul = some n' ∧
            mapLookup n'.fields f = some v ∧ mapLookup n'.states f = some s := by
        intro g1 heq
        exact ih hnd.2 hn2 g1 (by rw [hamAccepts_eq_of_lookup_eq heq]; exact hacc)
      by_cases hacc0 : (mixFields now g s0 n0.states
          (advanceFields verify s0 n0)).acc.isEmpty = true
      · obtain ⟨n', hn', hf', hs'⟩ := hlkeq g rfl
        refine ⟨n', ?_, hf', hs'⟩
        simp only [mixChange]
        rw [if_pos hacc0, if_pos hacc0]
        exact hn'
      · obtain ⟨n', hn', hf', hs'⟩ := hlkeq
          (applyAccepted g s0 (mixFields now g s0 n0.states
            (advanceFields verify s0 n0)).acc)
          (applyAccepted_lookup_ne hsoul _)
        refine ⟨n', ?_, hf', hs'⟩
        simp only [mixChange]
        rw [if_neg hacc0, if_neg hacc0]
        simp only [mapLookup, if_neg hsoul]
        exact hn'

theorem mixFields_wait_none {now : Int} {g : Graph} {soul : String}
    {states : List (String × Int)} {fields : List (String × GraphValue)}
    (h : (mixFields now g soul states fields).dfr.isEmpty = true) :
    (mixFields now g soul states fields).wait = none := by
  cases hw : (mixFields now g soul states fields).wait with
  | none => rfl
  | some w =>
    obtain ⟨t, ht, _⟩ := mixFields_wait_attained hw
    rw [List.isEmpty_iff.1 h] at ht
    exact absurd ht (by simp)

theorem mixFields_wait_some {now : Int} {g : Graph} {soul : String}
    {states : List (String × Int)} {fields : List (String × GraphValue)}
    (h : ¬ (mixFields now g soul states fields).dfr.isEmpty = true) :
    ∃ w0, (mixFields now g soul states fields).wait = some w0 := by
  have hne : (mixFields now g soul states fields).dfr ≠ [] := by
    intro hnil
    exact h (by rw [hnil]; rfl)
  obtain ⟨t, ht⟩ := List.exists_mem_of_ne_nil _ hne
  obtain ⟨w0, hw0, _⟩ := mixFields_dfr_wait ht
  exact ⟨w0, hw0⟩

theorem mixChange_defer_wait {verify : String → GraphValue → String → Bool}
    {now : Int} {change : Graph} :
    ∀ (g : Graph) (soul : String) (dn : Node) (f : String) (s : Int),
      mapLookup (mixChange verify now g change).defer soul = some dn →
      (f, s) ∈ dn.states →
      ∃ w, (mixChange verify now g change).wait = some w ∧ w ≤ s - now := by
  induction change with
  | nil => intro g soul dn f s h _; simp [mixChange, mapLookup] at h
  | cons sn rest ih =>
    intro g soul dn f s h hmem
    obtain ⟨s0, n0⟩ := sn
    simp only [mixChange] at h ⊢
    by_cases hdfr : (mixFields now g s0 n0.states
        (advanceFields verify s0 n0)).dfr.isEmpty = true
    · rw [if_pos hdfr] at h
      obtain ⟨wr, hwr, hle⟩ := ih _ _ _ _ _ h hmem
      rw [mixFields_wait_none hdfr, hwr]
      exact ⟨wr, rfl, hle⟩
    · rw [if_neg hdfr] at h
      by_cases hsoul : soul = s0
      · subst hsoul
        simp [mapLookup] at h
        rw [← h] at hmem
        simp only [nodeOfTriples] at hmem
        obtain ⟨t, ht, hts⟩ := List.mem_map.1 hmem
        obtain ⟨w0, hw0, hle0⟩ := mixFields_dfr_wait ht
        have hs2 : t.2.2 = s := congrArg Prod.snd hts
        rw [hw0]
        cases hrw : (mixChange verify now (if (mixFields now g soul n0.states
            (advanceFields verify soul n0)).acc.isEmpty = true then g
          else applyAccepted g soul (mixFields now g soul n0.states
            (advanceFields verify soul n0)).acc)
            rest).wait with
        | none => exact ⟨w0, rfl, by rw [← hs2]; exact hle0⟩
        | some wr =>
          exact ⟨min w0 wr, rfl, le_trans (min_le_left _ _) (by rw [← hs2]; exact hle0)⟩
      · simp only [mapLookup, if_neg hsoul] at h
        obtain ⟨wr, hwr, hle⟩ := ih _ _ _ _ _ h hmem
        obtain ⟨w0, hw0⟩ := mixFields_wait_some hdfr
        rw [hw0, hwr]
        exact ⟨min w0 wr, rfl, le_trans (min_le_right _ _) hle⟩

theorem mixChange_wait_attained {verify : String → GraphValue → String → Bool}
    {now : Int} {change : Graph}
    (hnd : (mapKeys change).Nodup) :
    ∀ (g : Graph) (w : Int), (mixChange verify now g change).wait = some w →
      ∃ soul dn f s, mapLookup (mixChange verify now g change).defer soul = some dn ∧
        (f, s) ∈ dn.states ∧ s - now = w := by
  induction change with
  | nil => intro g w h; simp [mixChange] at h
  | cons sn rest ih =>
    intro g w h
    obtain ⟨s0, n0⟩ := sn
    rw [mapKeys_cons, List.nodup_cons] at hnd
    simp only [mixChange] at h ⊢
    cases hnw : (mixFields now g s0 n0.states (advanceFields verify s0 n0)).wait with
    | none =>
      rw [hnw] at h
      have hdfr : (mixFields now g s0 n0.states
          (advanceFields verify s0 n0)).dfr.isEmpty = true := by
        by_contra hne
        obtain ⟨w0, hw0⟩ := mixFields_wait_some hne
        rw [hnw] at hw0
        exact absurd hw0 (by simp)
      obtain ⟨soul, dn, f, s, hdn, hmem, hsw⟩ := ih hnd.2 _ w h
      refine ⟨soul, dn, f, s, ?_, hmem, hsw⟩
      rw [if_pos hdfr]
      exact hdn
    | some d =>
      rw [hnw] at h
      have hdfr : ¬ (mixFields now g s0 n0.states
          (advanceFields verify s0 n0)).dfr.isEmpty = true := by
        intro hemp
        rw [mixFields_wait_none hemp] at hnw
        exact absurd hnw (by simp)
      cases hrw : (mixChange verify now (if (mixFields now g s0 n0.states
          (advanceFields verify s0 n0)).acc.isEmpty = true then g
        else applyAccepted g s0 (mixFields now g s0 n0.states
          (advanceFields verify s0 n0)).acc)
          rest).wait with
      | none =>
        rw [hrw] at h
        have hdw : d = w := Option.some.inj h
        obtain ⟨t, ht, hts⟩ := mixFields_wait_attained hnw
        refine ⟨s0, nodeOfTriples s0 n0.sigs (mixFields now g s0 n0.states
            (advanceFields verify s0 n0)).dfr,
          t.1, t.2.2, ?_, ?_, by rw [hts, hdw]⟩
        · rw [if_neg hdfr]
          simp [mapLookup]
        · simp only [nodeOfTriples]
          exact List.mem_map_of_mem _ ht
      | some wr =>
        rw [hrw] at h
        have hdw : min d wr = w := Option.some.inj h
        by_cases hmin : d ≤ wr
        · obtain ⟨t, ht, hts⟩ := mixFields_wait_attained hnw
          refine ⟨s0, nodeOfTriples s0 n0.sigs (mixFields now g s0 n0.states
              (advanceFields verify s0 n0)).dfr,
            t.1, t.2.2, ?_, ?_, ?_⟩
          · rw [if_neg hdfr]
            simp [mapLookup]
          · simp only [nodeOfTriples]
            exact List.mem_map_of_mem _ ht
          · rw [hts, ← hdw]
            exact (min_eq_left hmin).symm
        · obtain ⟨soul, dn, f, s, hdn, hmem, hsw⟩ := ih hnd.2 _ wr hrw
          have hsoul : soul ≠ s0 := by
            intro he
            subst he
            exact hnd.1 (mixChange_defer_keys_sub _ (mem_keys_of_lookup hdn))
          refine ⟨soul, dn, f, s, ?_, hmem, ?_⟩
          · rw [if_neg hdfr]
            simp only [mapLookup, if_neg hsoul]
            exact hdn
          · rw [hsw, ← hdw]
            exact (min_eq_right (by omega)).symm

/-! ## Lemmas for the PUT subscription filter -/

theorem mem_setAdd (p : List String) (x y : String) (h : x ∈ p) : x ∈ setAdd p y := by
  unfold setAdd
  by_cases hc : p.contains y = true
  · rw [if_pos hc]; exact h
  · rw [if_neg hc]; exact List.mem_append_left _ h

theorem mem_addRelTargetsGo {x : String} :
    ∀ (fields : List (String × GraphValue)) (pend : List String), x ∈ pend →
      x ∈ addRelTargetsGo pend fields := by
  intro fields
  induction fields with
  | nil => intro pend h; exact h
  | cons fv rest ih =>
    intro pend h
    unfold addRelTargetsGo
    cases hrel : relTarget fv.2 with
    | none => exact ih _ h
    | some t => exact ih _ (mem_setAdd _ _ _ h)

theorem extractPass_mono {st : CoreState} {x : String} :
    ∀ (putG : Graph) (pend : List String), x ∈ pend → x ∈ extractPass st pend putG := by
  intro putG
  induction putG with
  | nil => intro pend h; exact h
  | cons sn rest ih =>
    intro pend h
    obtain ⟨soul, node⟩ := sn
    simp only [extractPass]
    by_cases hsub : subscribed st pend soul = true
    · rw [if_pos hsub]
      exact ih _ (mem_addRelTargetsGo _ _ h)
    · rw [if_neg hsub]
      exact ih _ h

theorem subscribed_false {st : CoreState} {soul : String}
    (hg : mapLookup st.graph soul = none)
    (hsS : st.storeSouls.contains soul = false)
    (hl : mapLookup st.listen soul = none)
    {pend : List String} (hp : soul ∉ pend) :
    subscribed st pend soul = false := by
  unfold subscribed hasSoul
  rw [hg, hsS, hl]
  have hc : pend.contains soul = false := by simpa using hp
  rw [hc]
  rfl

theorem filterPass_not_mem {st : CoreState} {soul : String}
    (hg : mapLookup st.graph soul = none)
    (hsS : st.storeSouls.contains soul = false)
    (hl : mapLookup st.listen soul = none) :
    ∀ (putG : Graph) (pend : List String), soul ∉ pend →
      soul ∉ mapKeys (filterPass st pend putG).2 := by
  intro putG
  induction putG with
  | nil => intro pend hp; simp [filterPass]
  | cons sn rest ih =>
    intro pend hp
    obtain ⟨s0, n0⟩ := sn
    simp only [filterPass]
    by_cases hk : subscribed st pend s0 = true
    · rw [if_pos hk]
      intro hmem
      rw [mapKeys_cons, List.mem_cons] at hmem
      rcases hmem with hmem | hmem
      · subst hmem
        rw [subscribed_false hg hsS hl hp] at hk
        exact absurd hk (by simp)
      · exact ih _ (fun hmem2 => hp (List.mem_of_mem_erase hmem2)) hmem
    · rw [if_neg hk]
      exact ih _ hp

/-- **C1** (counterexample to the claim as stated): with an empty in-memory
graph, no listeners and empty pendingReferences, a PUT for a soul whose data
lives only in the store is retained by the subscription filter and written
back via `store.put`, because the filter predicate `hasSoul` also consults
the store. -/
theorem c1_put_filter_counterexample :
    mapKeys (filterPass
        ⟨[], [], [], [], FingerTableState.empty, [], ["s"], []⟩
        (extractPass ⟨[], [], [], [], FingerTableState.empty, [], ["s"], []⟩ []
          [("s", ⟨"s", [("f", 1)], [("f", GraphValue.str "x")], []⟩)])
        [("s", ⟨"s", [("f", 1)], [("f", GraphValue.str "x")], []⟩)]).2 = ["s"] ∧
    (handleMessage "self" (fun _ _ => 0) (fun _ _ _ => false) 5 true
        ⟨[], [], [], [], FingerTableState.empty, [], ["s"], []⟩
        ⟨some "m1", none, none, none,
          some [("s", ⟨"s", [("f", 1)], [("f", GraphValue.str "x")], []⟩)]⟩
        "c").1.writes = [["s"]] :=
  ⟨rfl, rfl⟩

/-- **C1** (amended): a PUT soul that is absent from the in-memory graph,
has no data in the store, has no listener, and is not in
`pendingReferences` even after the first extraction pass (so in particular
was not initially pending and is not the relation target of any subscribed
soul of the same message) is filtered out and not persisted: it is not among
the retained souls, and every `store.put` write list produced by the message
omits it. -/
theorem c1_put_filter_amended (verify : String → GraphValue → String → Bool)
    (now : Int) (checkOk : Bool) (st : CoreState)
    (putG : Graph) (soul : String)
    (hg : mapLookup st.graph soul = none)
    (hsS : st.storeSouls.contains soul = false)
    (hl : mapLookup st.listen soul = none)
    (hp : soul ∉ extractPass st st.pending putG) :
    soul ∉ mapKeys (filterPass st (extractPass st st.pending putG) putG).2 ∧
    ∀ w ∈ (handleMsgPut verify now checkOk st putG).1.writes,
      w ∈ st.writes ∨ soul ∉ w := by
  have hfilter := filterPass_not_mem hg hsS hl putG _ hp
  refine ⟨hfilter, ?_⟩
  intro w hw
  simp only [handleMsgPut] at hw
  by_cases hemp :
      (filterPass st (extractPass st st.pending putG) putG).2.isEmpty = true
  · rw [if_pos hemp] at hw
    exact Or.inl hw
  · rw [if_neg hemp] at hw
    rcases List.mem_append.1 hw with hw | hw
    · exact Or.inl hw
    · right
      rw [List.mem_singleton] at hw
      subst hw
      intro hmem
      have hsub : soul ∈
          mapKeys (filterPass st (extractPass st st.pending putG) putG).2 := by
        revert hmem
        simp only [handlePutStep]
        by_cases hng : (hamMix verify now
            (filterPass st (extractPass st st.pending putG) putG).2
            st.graph).nowG.isEmpty = true
        · rw [if_pos hng]
          intro hmem
          exact absurd hmem (by simp)
        · rw [if_neg hng]
          cases checkOk with
          | true =>
            intro hmem
            exact mixChange_nowG_keys_sub _ hmem
          | false =>
            intro hmem
            exact absurd hmem (by simp)
      exact hfilter hsub

/-- Witness for the amended C1: at a fully empty wire state the PUT soul is
filtered out. -/
theorem c1_put_filter_amended_witness :
    "s" ∉ mapKeys (filterPass ⟨[], [], [], [], FingerTableState.empty, [], [], []⟩
      (extractPass ⟨[], [], [], [], FingerTableState.empty, [], [], []⟩ []
        [("s", ⟨"s", [("f", 1)], [("f", GraphValue.str "x")], []⟩)])
      [("s", ⟨"s", [("f", 1)], [("f", GraphValue.str "x")], []⟩)]).2 :=
  (c1_put_filter_amended (fun _ _ _ => false) 5 true
    ⟨[], [], [], [], FingerTableState.empty, [], [], []⟩
    [("s", ⟨"s", [("f", 1)], [("f", GraphValue.str "x")], []⟩)] "s"
    rfl rfl rfl (by decide)).1

/-- **C4**: in a PUT merge at time `now`, (a) a field whose incoming state
exceeds `now + 24h` is neither applied nor deferred; (b) a field that
survives the user-soul validation (plain souls unconditionally; `~pub`
souls only with a matching `pub` field and a verified signature for the
field's state; `~@alias` souls only when the key equals the relation
target) and whose state is strictly future but within 24 h is placed in
the defer map with its value and state; (c) `wait` is a lower bound of,
and is attained by, the deferral delays `state − now`, so it is their
minimum; (d) `handlePut` schedules the deferred subgraph for re-merge
after `wait` ms (when something was accepted this requires the wire check
to pass, since a failed check returns early); (e) re-merging the defer map
at any time `t ≥ state` applies the deferred field (provided it survives
validation again and still wins against the target graph), so the field
lands at its state's wall-clock moment. -/
theorem c4_deferral_spec (verify : String → GraphValue → String → Bool)
    (now : Int) (change g : Graph) :
    (∀ soul node f s, (mapKeys change).Nodup →
      (mapKeys node.fields).Nodup →
      mapLookup change soul = some node →
      mapLookup node.states f = some s → now + dayMs < s →
      (∀ n', mapLookup (hamMix verify now change g).nowG soul = some n' →
        mapLookup n'.fields f = none) ∧
      (∀ n', mapLookup (hamMix verify now change g).defer soul = some n' →
        mapLookup n'.fields f = none)) ∧
    (∀ soul node f s v, (mapKeys change).Nodup → (mapKeys node.fields).Nodup →
      mapLookup change soul = some node →
      mapLookup node.states f = some s →
      mapLookup (advanceFields verify soul node) f = some v →
      now < s → s ≤ now + dayMs →
      ∃ dn, mapLookup (hamMix verify now change g).defer soul = some dn ∧
        mapLookup dn.fields f = some v ∧ mapLookup dn.states f = some s) ∧
    (∀ soul dn f s, mapLookup (hamMix verify now change g).defer soul = some dn →
      (f, s) ∈ dn.states →
      ∃ w, (hamMix verify now change g).wait = some w ∧ w ≤ s - now) ∧
    (∀ w, (mapKeys change).Nodup → (hamMix verify now change g).wait = some w →
      ∃ soul dn f s, mapLookup (hamMix verify now change g).defer soul = some dn ∧
        (f, s) ∈ dn.states ∧ s - now = w) ∧
    (∀ checkOk, (hamMix verify now change g).defer ≠ [] →
      ((hamMix verify now change g).nowG = [] ∨ checkOk = true) →
      (handlePutStep verify now g change checkOk).scheduled =
        some ((hamMix verify now change g).wait.getD 0,
          (hamMix verify now change g).defer)) ∧
    (∀ t g2 soul dn f s v,
      (mapKeys (hamMix verify now change g).defer).Nodup →
      (mapKeys dn.fields).Nodup →
      mapLookup (hamMix verify now change g).defer soul = some dn →
      mapLookup dn.states f = some s →
      mapLookup (advanceFields verify soul dn) f = some v →
      s ≤ t → hamAccepts g2 soul f s v = true →
      ∃ n', mapLookup
          (hamMix verify t (hamMix verify now change g).defer g2).nowG soul =
            some n' ∧
        mapLookup n'.fields f = some v ∧ mapLookup n'.states f = some s) := by
  refine ⟨?_, ?_, ?_, ?_, ?_, ?_⟩
  · intro soul node f s hnd hndf hn hs htf
    exact mixChange_toofar hnd hndf hn hs htf g
  · intro soul node f s v hnd hndf hn hs hv h2 h1
    exact mixChange_defer_lookup hnd hndf hn hs hv h2 h1 g
  · intro soul dn f s hdn hmem
    exact mixChange_defer_wait g soul dn f s hdn hmem
  · intro w hnd hw
    exact mixChange_wait_attained hnd g w hw
  · intro checkOk hdef hok
    have hdemp : ¬ (hamMix verify now change g).defer.isEmpty = true := by
      intro h
      exact hdef (List.isEmpty_iff.1 h)
    simp only [handlePutStep]
    rcases hok with hng | hco
    · rw [hng]
      simp only [List.isEmpty_nil, ite_true]
      rw [if_neg hdemp]
    · by_cases hng : (hamMix verify now change g).nowG.isEmpty = true
      · rw [if_pos hng, if_neg hdemp]
      · rw [if_neg hng, hco]
        simp only [ite_true]
        rw [if_neg hdemp]
  · intro t g2 soul dn f s v hnd hndf hdn hs hv hle hacc
    exact mixChange_accepts hnd hndf hdn hs hv hle g2 hacc

/-- Witness for C4: a field of a plain soul (validation is the identity
there) one state unit in the future is deferred with its value and state. -/
theorem c4_deferral_spec_witness :
    ∃ dn, mapLookup (hamMix (fun _ _ _ => false) 5
        [("s", ⟨"s", [("f", 10)], [("f", GraphValue.str "x")], []⟩)] []).defer
          "s" = some dn ∧
      mapLookup dn.fields "f" = some (GraphValue.str "x") ∧
      mapLookup dn.states "f" = some 10 :=
  (c4_deferral_spec (fun _ _ _ => false) 5
      [("s", ⟨"s", [("f", 10)], [("f", GraphValue.str "x")], []⟩)] []).2.1
    "s" ⟨"s", [("f", 10)], [("f", GraphValue.str "x")], []⟩ "f" 10
    (GraphValue.str "x")
    (by decide) (by decide) rfl rfl (by decide) (by decide) (by decide)

/-- Witness for C3: a message whose id is already tracked leaves a concrete
wire state untouched and triggers no handler. -/
theorem c3_dedup_drop_witness :
    handleMessage "self" (fun _ _ => 0) (fun _ _ _ => false) 0 true
        ⟨[], [], [], [], FingerTableState.empty, ["m1"], [], []⟩
        ⟨some "m1", none, some "peerA", none, none⟩ "c" =
      (⟨[], [], [], [], FingerTableState.empty, ["m1"], [], []⟩, []) :=
  c3_dedup_drop "self" (fun _ _ => 0) (fun _ _ _ => false) 0 true
    ⟨[], [], [], [], FingerTableState.empty, ["m1"], [], []⟩
    ⟨some "m1", none, some "peerA", none, none⟩ "c"
    (Or.inr ⟨"m1", rfl, by decide⟩)

end Mesh
